import Mathlib

/-!
Verification of the decoration-computation pipeline of
`markdown-inline-preview-vscode` (`src/decorator.ts`).

The document text (`document.getText()`) is modelled as a `List Char`; offsets
are list indices.  Each regular expression of the source is embedded as a
`Scanner`: a function that decides whether a match starts at a given offset and
returns the match length together with the capture-group data the decorator
reads.  The JavaScript global-regex `exec` loop, including its `lastIndex`
behaviour, is modelled by `execAllFrom`.  Positions (`document.positionAt`) are
modelled through `lineOf`; `Range` values are kept as offset pairs, which are
order-isomorphic to the host's `(line, character)` positions.
-/

namespace MD

/-- Document text: the characters of `document.getText()`. -/
abbrev Text := List Char

/-- Character at offset `p` (`none` beyond the end of the text). -/
def charAt? (s : Text) (p : Nat) : Option Char := s.get? p

/-- JavaScript line terminators: the characters `.` does not match and after
which a multiline `^` matches. -/
def isLineTermB (c : Char) : Bool :=
  c = '\n' || c = '\r' || c = '\u2028' || c = '\u2029'

/-- JavaScript `\s` (whitespace class). -/
def isJsWsB (c : Char) : Bool :=
  c = ' ' || c = '\t' || c = '\n' || c = '\r' || c = '\u000b' || c = '\u000c' ||
  c = '\u00a0' || c = '\u1680' || ('\u2000' ≤ c && c ≤ '\u200a') ||
  c = '\u2028' || c = '\u2029' || c = '\u202f' || c = '\u205f' ||
  c = '\u3000' || c = '\ufeff'

/-- JavaScript `.` matches every character except the line terminators. -/
def isDotB (c : Char) : Bool := !(isLineTermB c)

/-- The class `[ \t]`. -/
def isSpaceTabB (c : Char) : Bool := c = ' ' || c = '\t'

def isHashB (c : Char) : Bool := c = '#'

/-- `[a-z]` under the `i` flag. -/
def isAsciiLetterB (c : Char) : Bool := ('a' ≤ c && c ≤ 'z') || ('A' ≤ c && c ≤ 'Z')

def isDigitB (c : Char) : Bool := '0' ≤ c && c ≤ '9'

/-- The scheme-tail class `[a-z0-9+.-]` under the `i` flag. -/
def isSchemeCharB (c : Char) : Bool :=
  isAsciiLetterB c || isDigitB c || c = '+' || c = '.' || c = '-'

/-- `\w` = `[A-Za-z0-9_]`. -/
def isWordB (c : Char) : Bool := isAsciiLetterB c || isDigitB c || c = '_'

/-- The class `[^\s<>]`. -/
def isAngleURICharB (c : Char) : Bool := !(isJsWsB c) && !(c = '<') && !(c = '>')

/-- The class `[^\s)]`. -/
def isParenURICharB (c : Char) : Bool := !(isJsWsB c) && !(c = ')')

/-- The class `[^\]]`. -/
def isNotCloseBracketB (c : Char) : Bool := !(c = ']')

/-- Length of the longest run of characters satisfying `p` at the head of a
list (a maximal greedy character-class repetition). -/
def countLeading (p : Char → Bool) : Text → Nat
  | [] => 0
  | c :: t => if p c then countLeading p t + 1 else 0

/-- Length of the maximal run of characters satisfying `p` starting at
offset `i`. -/
def runLen (p : Char → Bool) (s : Text) (i : Nat) : Nat :=
  countLeading p (s.drop i)

/-- The segment of `n` characters starting at offset `i` (a substring). -/
def seg (s : Text) (i n : Nat) : Text := (s.drop i).take n

/-- Smallest `L ≥ lo` (within `fuel` candidates) satisfying `P`: the semantics
of a lazy quantifier expanding one step at a time until its continuation
matches. -/
def findMinLen (P : Nat → Bool) : Nat → Nat → Option Nat
  | _, 0 => none
  | lo, fuel+1 => if P lo then some lo else findMinLen P (lo+1) fuel

/-- A host `Range`, kept as a pair of character offsets.  The host stores
`(line, character)` positions obtained through `positionAt`, which is an
order isomorphism between valid offsets and positions. -/
structure Rng where
  start : Nat
  stop : Nat
deriving DecidableEq, Repr

/-- `Range.contains(other)`: `start ≤ other.start ∧ other.end ≤ end`. -/
def Rng.containsB (outer inner : Rng) : Bool :=
  decide (outer.start ≤ inner.start) && decide (inner.stop ≤ outer.stop)

/-- A selection.  `isLineOfRangeSelected` reads only `s.start.line` and
`s.end.line` of each selection, so only the line numbers are modelled. -/
structure Sel where
  startLine : Nat
  endLine : Nat
deriving DecidableEq, Repr

/-- The line of offset `p`: the number of newline characters before it
(`positionAt(p).line`). -/
def lineOf (s : Text) (p : Nat) : Nat :=
  ((s.take p).filter (fun c => c = '\n')).length

/-- The decoration types of `decorations.ts`, one per
`TextEditorDecorationType` instance of the `Decorator` class. -/
inductive DecorationKind
  | hide
  | defaultColor
  | xxl
  | xl
  | l
  | uri
  | spaceAfter
  | horizontalLine
deriving DecidableEq, Repr

/-- The `Decoration` record of `decorator.ts`: the sub-range to decorate, the
full range of the construct it belongs to, and the decoration type. -/
structure Decoration where
  range : Rng
  parent : Rng
  type : DecorationKind
deriving DecidableEq, Repr

/-- The `LinkData` record of `documentLinkProvider.ts`. -/
structure LinkData where
  range : Rng
  target : Text
deriving DecidableEq, Repr

/-! ### The `exec` loop -/

/-- A regex match: start offset, full-match length, and the capture-group
data the decorator reads from it. -/
structure RMatch (α : Type) where
  idx : Nat
  len : Nat
  data : α
deriving DecidableEq, Repr

/-- A scanner decides whether a match of one pattern starts at a given offset
and returns its length and group data. -/
abbrev Scanner (α : Type) := Text → Nat → Option (Nat × α)

def firstFromAux (tryAt : Scanner α) (s : Text) : Nat → Nat → Option (RMatch α)
  | _, 0 => none
  | j, fuel+1 =>
    match tryAt s j with
    | some (l, a) => some ⟨j, l, a⟩
    | none => firstFromAux tryAt s (j+1) fuel

/-- One `regex.exec(text)` call with `lastIndex = i`: the first match starting
at or after `i`. -/
def firstFrom (tryAt : Scanner α) (s : Text) (i : Nat) : Option (RMatch α) :=
  firstFromAux tryAt s i (s.length + 1 - i)

def execAllAux (tryAt : Scanner α) (s : Text) : Nat → Nat → List (RMatch α) × Nat
  | i, 0 => ([], i)
  | i, fuel+1 =>
    match firstFrom tryAt s i with
    | none => ([], 0)
    | some m =>
      let r := execAllAux tryAt s (m.idx + m.len) fuel
      (m :: r.1, r.2)

/-- The `while ((match = regex.exec(text)))` loop started at `lastIndex = i`:
the matches collected in order and the regex's final `lastIndex`.  A failing
`exec` resets `lastIndex` to `0`; a successful one sets it to the end of the
match. -/
def execAllFrom (tryAt : Scanner α) (s : Text) (i : Nat) : List (RMatch α) × Nat :=
  execAllAux tryAt s i (s.length + 1 - i)

/-- All matches of a pattern over the text, scanning from offset `0`. -/
def execAll (tryAt : Scanner α) (s : Text) : List (RMatch α) :=
  (execAllFrom tryAt s 0).1

/-! ### The patterns of `decorator.ts` -/

/-- Content condition of the symmetric patterns
`((?=[^\s*_]).*?[^\s*_])` (and the `~`/backtick analogues): the first and last
content characters avoid the `bad` class, every character before the last is
matched by `.`. -/
def symContentOK (bad : Char → Bool) (s : Text) (j L : Nat) : Bool :=
  (match charAt? s j with | some c => !(bad c) | none => false) &&
  (match charAt? s (j + L - 1) with | some c => !(bad c) | none => false) &&
  ((List.range (L - 1)).all fun t =>
    match charAt? s (j + t) with | some c => isDotB c | none => false)

/-- `[\s*_]`. -/
def badStarB (c : Char) : Bool := isJsWsB c || c = '*' || c = '_'

/-- `[\s~]`. -/
def badTildeB (c : Char) : Bool := isJsWsB c || c = '~'

/-- The class containing whitespace and the backtick. -/
def badTickB (c : Char) : Bool := isJsWsB c || c = '`'

/-- The marker class `[*_]` of the italic lookarounds `(?<!\*|_)`/`(?!\*|_)`. -/
def isStarUndB (c : Char) : Bool := c = '*' || c = '_'

/-- The marker class of the strikethrough lookarounds `(?<!~)`/`(?!~)`. -/
def isTildeCB (c : Char) : Bool := c = '~'

/-- A negative lookaround at offset `p`: the character there (if any) is not
in the class. -/
def lookNegB (bad : Char -> Bool) (s : Text) (p : Nat) : Bool :=
  match charAt? s p with
  | some c => !(bad c)
  | none => true

/-- A negative lookbehind before offset `i`: at the start of the text there is
no previous character. -/
def lookBehindNegB (bad : Char -> Bool) (s : Text) (i : Nat) : Bool :=
  if i = 0 then true else lookNegB bad s (i-1)

/-- `BOLD_REGEX = (\*{2}|_{2})((?=[^\s*_]).*?[^\s*_])(\1)`.  Group data:
lengths of group 1 and of the last group. -/
def boldTryAt : Scanner (Nat × Nat) := fun s i =>
  if seg s i 2 == ['*', '*'] || seg s i 2 == ['_', '_'] then
    match findMinLen (fun L => symContentOK badStarB s (i+2) L &&
        (seg s (i+2+L) 2 == seg s i 2)) 1 (s.length + 1) with
    | some L => some (2 + L + 2, (2, 2))
    | none => none
  else none

/-- `ITALIC_REGEX = (?<!\*|_)(\*|_)((?=[^\s*_]).*?[^\s*_])(\1)(?!\*|_)`. -/
def italicTryAt : Scanner (Nat × Nat) := fun s i =>
  if lookBehindNegB isStarUndB s i then
    match charAt? s i with
    | some d =>
      if isStarUndB d then
        match findMinLen (fun L => symContentOK badStarB s (i+1) L &&
            (charAt? s (i+1+L) == some d) &&
            lookNegB isStarUndB s (i+2+L)) 1 (s.length + 1) with
        | some L => some (1 + L + 1, (1, 1))
        | none => none
      else none
    | none => none
  else none

/-- `STRIKETHROUGH_REGEX = (?<!~)(~{2})((?=[^\s~]).*?[^\s~])(~{2})(?!~)`. -/
def strikethroughTryAt : Scanner (Nat × Nat) := fun s i =>
  if lookBehindNegB isTildeCB s i && (seg s i 2 == ['~', '~']) then
    match findMinLen (fun L => symContentOK badTildeB s (i+2) L &&
        (seg s (i+2+L) 2 == ['~', '~']) &&
        lookNegB isTildeCB s (i+4+L)) 1 (s.length + 1) with
    | some L => some (2 + L + 2, (2, 2))
    | none => none
  else none

/-- `INLINE_CODE_REGEX`: a backtick, content as in the other symmetric
patterns, a backtick. -/
def inlineCodeTryAt : Scanner (Nat × Nat) := fun s i =>
  if charAt? s i == some '`' then
    match findMinLen (fun L => symContentOK badTickB s (i+1) L &&
        (charAt? s (i+1+L) == some '`')) 1 (s.length + 1) with
    | some L => some (1 + L + 1, (1, 1))
    | none => none
  else none

/-- The lazy body `(.*\n)*?` followed by the closing fence `(\2\n)` of
`BLOCK_CODE_REGEX`: at each iteration boundary the closing fence is tried
first; a body line is a maximal `.` run followed by a newline.  Returns the
total body length up to the start of the closing fence. -/
def blockBody (s : Text) (f : Text) : Nat → Nat → Option Nat
  | _, 0 => none
  | p, fuel+1 =>
    if seg s p 3 == f && (charAt? s (p+3) == some '\n') then some 0
    else if charAt? s (p + runLen isDotB s p) == some '\n' then
      (blockBody s f (p + runLen isDotB s p + 1) fuel).map
        (fun b => runLen isDotB s p + 1 + b)
    else none

/-- `BLOCK_CODE_REGEX = ((`+"`"+`{3}|~{3})\w*\n)(.*\n)*?(\2\n)` (an
exactly-three-character fence, a `\w*` language tag, a newline, lazy body
lines, the same fence and a newline).  Group data: lengths of group 1 (the
whole opening fence line) and of the last group (`\2\n`, 4 characters). -/
def blockCodeTryAt : Scanner (Nat × Nat) := fun s i =>
  let f := seg s i 3
  if f == ['`', '`', '`'] || f == ['~', '~', '~'] then
    let w := runLen isWordB s (i+3)
    if charAt? s (i+3+w) == some '\n' then
      match blockBody s f (i+4+w) (s.length + 1) with
      | some b => some ((4+w) + b + 4, (4+w, 4))
      | none => none
    else none
  else none

/-- `SIMPLE_URI_REGEX = (<)([a-z][a-z0-9+.-]*:[^\s<>]+)(>)` with the `i`
flag. -/
def simpleURITryAt : Scanner (Nat × Nat) := fun s i =>
  if charAt? s i == some '<' then
    match charAt? s (i+1) with
    | some c0 =>
      if isAsciiLetterB c0 then
        let r1 := runLen isSchemeCharB s (i+2)
        if charAt? s (i+2+r1) == some ':' then
          let r2 := runLen isAngleURICharB s (i+3+r1)
          if decide (1 ≤ r2) && (charAt? s (i+3+r1+r2) == some '>') then
            some (1 + (2 + r1 + r2) + 1, (1, 1))
          else none
        else none
      else none
    | none => none
  else none

/-- Group data of an aliased-link match: the length of the link text
(group 2) and of the URL (group 4). -/
structure AliasedData where
  textLen : Nat
  urlLen : Nat
deriving DecidableEq, Repr

/-- `ALIASED_URI_REGEX = (\[)([^\]]+)(\]\()([a-z][a-z0-9+.-]*:[^\s)]+)(\))`
with the `i` flag. -/
def aliasedURITryAt : Scanner AliasedData := fun s i =>
  if charAt? s i == some '[' then
    let t := runLen isNotCloseBracketB s (i+1)
    if decide (1 ≤ t) && (charAt? s (i+1+t) == some ']') &&
        (charAt? s (i+2+t) == some '(') then
      match charAt? s (i+3+t) with
      | some c0 =>
        if isAsciiLetterB c0 then
          let r1 := runLen isSchemeCharB s (i+4+t)
          if charAt? s (i+4+t+r1) == some ':' then
            let r2 := runLen isParenURICharB s (i+5+t+r1)
            if decide (1 ≤ r2) && (charAt? s (i+5+t+r1+r2) == some ')') then
              some (1 + t + 2 + (2+r1+r2) + 1, ⟨t, 2+r1+r2⟩)
            else none
          else none
        else none
      | none => none
    else none
  else none

/-- Group data of a reference-link match: lengths of the link text (group 2),
of the optional whitespace (group 4) and of the reference id (group 6). -/
structure ReferenceData where
  textLen : Nat
  spaceLen : Nat
  refLen : Nat
deriving DecidableEq, Repr

/-- The `(\s?)(\[)` step of `REFERENCE_URI_REGEX` at offset `k`: the greedy
`\s?` consumes one whitespace character only when a `[` follows it; otherwise
it matches empty and the `[` must stand at `k` itself.  Returns the length of
the consumed whitespace group. -/
def refSpace? (s : Text) (k : Nat) : Option Nat :=
  match charAt? s k with
  | some c =>
    if isJsWsB c then
      (if charAt? s (k+1) == some '[' then some 1 else none)
    else if c = '[' then some 0
    else none
  | none => none

/-- `REFERENCE_URI_REGEX = (\[)([^\]]+)(\])(\s?)(\[)([^\]]+)(\])`. -/
def referenceURITryAt : Scanner ReferenceData := fun s i =>
  if charAt? s i == some '[' then
    if decide (1 ≤ runLen isNotCloseBracketB s (i+1)) &&
        (charAt? s (i+1+runLen isNotCloseBracketB s (i+1)) == some ']') then
      match refSpace? s (i+2+runLen isNotCloseBracketB s (i+1)) with
      | some spl =>
        if decide (1 ≤ runLen isNotCloseBracketB s
              (i+2+runLen isNotCloseBracketB s (i+1)+spl+1)) &&
            (charAt? s (i+2+runLen isNotCloseBracketB s (i+1)+spl+1+
              runLen isNotCloseBracketB s
                (i+2+runLen isNotCloseBracketB s (i+1)+spl+1)) == some ']')
            then
          some (1+runLen isNotCloseBracketB s (i+1)+1+spl+1+
              runLen isNotCloseBracketB s
                (i+2+runLen isNotCloseBracketB s (i+1)+spl+1)+1,
            ⟨runLen isNotCloseBracketB s (i+1), spl,
             runLen isNotCloseBracketB s
               (i+2+runLen isNotCloseBracketB s (i+1)+spl+1)⟩)
        else none
      | none => none
    else none
  else none

/-- A position where the multiline `^` matches: the start of the text or the
position right after a line terminator. -/
def isMLineStart (s : Text) (j : Nat) : Bool :=
  j == 0 || (match charAt? s (j-1) with | some c => isLineTermB c | none => false)

/-- The heading patterns `^[ \t]*#{..}([ \t].*|$)` with the `m` flag
(`ALL_HEADINGS_REGEX`, `H1_REGEX`, `H2_REGEX`, `H3_REGEX`), parameterised by
the acceptable `#`-run length: the bounded greedy `#` repetition can only
succeed when the whole maximal run is taken (any shorter prefix is followed by
another `#`, which neither `[ \t]` nor `$` matches), so `hOK` receives the
maximal run length (`1 ≤ h ≤ 6` for the combined pattern, an exact count for
the per-level patterns). -/
def headingTryAt (hOK : Nat → Bool) : Scanner Unit := fun s j =>
  if isMLineStart s j then
    let ind := runLen isSpaceTabB s j
    let h := runLen isHashB s (j + ind)
    if hOK h then
      match charAt? s (j + ind + h) with
      | none => some (ind + h, ())
      | some c =>
        if isSpaceTabB c then
          some (ind + h + 1 + runLen isDotB s (j + ind + h + 1), ())
        else if isLineTermB c then some (ind + h, ())
        else none
    else none
  else none

def hAllOK (h : Nat) : Bool := decide (1 ≤ h) && decide (h ≤ 6)

def h1OK (h : Nat) : Bool := h == 1

def h2OK (h : Nat) : Bool := h == 2

def h3OK (h : Nat) : Bool := h == 3

/-- The inner prefix regex `^[ \t]*#{1,6}([ \t]|$)` that `headings` runs on
each full heading match, returning the length of its match (`?? 0` when it
does not match). -/
def headingPrefixLen (g : Text) : Nat :=
  let ind := countLeading isSpaceTabB g
  let h := countLeading isHashB (g.drop ind)
  if decide (1 ≤ h) && decide (h ≤ 6) then
    match charAt? g (ind + h) with
    | none => ind + h
    | some c => if isSpaceTabB c then ind + h + 1 else 0
  else 0

/-- `\r?\n` at offset `p`: a `\n` (length 1) or a `\r\n` (length 2; a lone
`\r` cannot match because the optional `\r` must be followed by `\n`). -/
def crlfAt (s : Text) (p : Nat) : Option Nat :=
  if charAt? s p == some '\n' then some 1
  else if (charAt? s p == some '\r') && (charAt? s (p+1) == some '\n') then some 2
  else none

/-- Group data of a horizontal-line match: length of the leading blank-line
part, lengths of groups 1–3 and the rule character. -/
structure HRData where
  pre : Nat
  lead : Nat
  runChar : Char
  run : Nat
  trail : Nat
deriving DecidableEq, Repr

/-- `HORIZONTAL_LINE_REGEX =
(?:\r?\n)[ \t]*(?:\r?\n)([ \t]*)(-{3,}|\*{3,}|_{3,})([ \t]*)(?=(?:\r?\n)[ \t]*(?:\r?\n))`:
a blank line, the indented rule of three-or-more identical characters with
trailing blanks, and a zero-width lookahead requiring another blank line. -/
def hrTryAt : Scanner HRData := fun s i =>
  match crlfAt s i with
  | none => none
  | some n1 =>
    let w1 := runLen isSpaceTabB s (i+n1)
    match crlfAt s (i+n1+w1) with
    | none => none
    | some n2 =>
      let p := i+n1+w1+n2
      let lead := runLen isSpaceTabB s p
      match charAt? s (p+lead) with
      | none => none
      | some c =>
        if c = '-' || c = '*' || c = '_' then
          let run := runLen (fun x => x = c) s (p+lead)
          if decide (3 ≤ run) then
            let trail := runLen isSpaceTabB s (p+lead+run)
            let q := p+lead+run+trail
            match crlfAt s q with
            | none => none
            | some m1 =>
              let w2 := runLen isSpaceTabB s (q+m1)
              match crlfAt s (q+m1+w2) with
              | none => none
              | some _ => some ((n1+w1+n2) + lead + run + trail, ⟨n1+w1+n2, lead, c, run, trail⟩)
          else none
        else none

/-- `String.prototype.lastIndexOf`, searching downward from `j`. -/
def lastIndexOfAux (hay pat : Text) : Nat → Option Nat
  | 0 => if List.isPrefixOf pat hay then some 0 else none
  | j+1 =>
    if List.isPrefixOf pat (hay.drop (j+1)) then some (j+1)
    else lastIndexOfAux hay pat j

/-- The largest index at which `pat` occurs in `hay` (`none` for JS's `-1`). -/
def lastIndexOfPos (hay pat : Text) : Option Nat :=
  lastIndexOfAux hay pat hay.length

/-! ### The `Decorator` methods -/

/-- `getSymmetricHideRanges`: for each match, the opening-symbol range
(`match.index` through `match.index + match[1].length`) and the closing-symbol
range (`match.index + match[0].length - match[last].length` through the match
end), each paired with the full-match `parent` range. -/
def getSymmetricHideRanges (s : Text) (tryAt : Scanner (Nat × Nat)) :
    List (Rng × Rng) :=
  (execAll tryAt s).flatMap fun m =>
    let parent : Rng := ⟨m.idx, m.idx + m.len⟩
    [(⟨m.idx, m.idx + m.data.1⟩, parent),
     (⟨m.idx + m.len - m.data.2, m.idx + m.len⟩, parent)]

/-- `getFullMatchRanges`: the full-match range of each match, which is its own
`parent`. -/
def getFullMatchRanges (s : Text) (tryAt : Scanner α) : List (Rng × Rng) :=
  (execAll tryAt s).map fun m =>
    (⟨m.idx, m.idx + m.len⟩, ⟨m.idx, m.idx + m.len⟩)

/-- `bold`: Hide spans over the markers plus a DefaultColor span over the full
match. -/
def bold (s : Text) : List Decoration :=
  (getSymmetricHideRanges s boldTryAt).map
    (fun rp => ⟨rp.1, rp.2, .hide⟩) ++
  (getFullMatchRanges s boldTryAt).map
    (fun rp => ⟨rp.1, rp.2, .defaultColor⟩)

/-- `italic`: Hide spans over the markers plus a DefaultColor span over the
full match. -/
def italic (s : Text) : List Decoration :=
  (getSymmetricHideRanges s italicTryAt).map
    (fun rp => ⟨rp.1, rp.2, .hide⟩) ++
  (getFullMatchRanges s italicTryAt).map
    (fun rp => ⟨rp.1, rp.2, .defaultColor⟩)

/-- `strikethrough`: Hide spans over the `~~` markers. -/
def strikethrough (s : Text) : List Decoration :=
  (getSymmetricHideRanges s strikethroughTryAt).map
    (fun rp => ⟨rp.1, rp.2, .hide⟩)

/-- `inlineCode`: Hide spans over the backticks. -/
def inlineCode (s : Text) : List Decoration :=
  (getSymmetricHideRanges s inlineCodeTryAt).map
    (fun rp => ⟨rp.1, rp.2, .hide⟩)

/-- `blockCode`: Hide spans over the fence lines. -/
def blockCode (s : Text) : List Decoration :=
  (getSymmetricHideRanges s blockCodeTryAt).map
    (fun rp => ⟨rp.1, rp.2, .hide⟩)

/-- `simpleURI`: Hide spans over the angle brackets. -/
def simpleURI (s : Text) : List Decoration :=
  (getSymmetricHideRanges s simpleURITryAt).map
    (fun rp => ⟨rp.1, rp.2, .hide⟩)

/-- The `LinkData` entry an aliased-link match produces: the link-text range
and the URL (group 4) as target. -/
def aliasedLinkOf (s : Text) (m : RMatch AliasedData) : LinkData :=
  ⟨⟨m.idx + 1, m.idx + 1 + m.data.textLen⟩,
   seg s (m.idx + 1 + m.data.textLen + 2) m.data.urlLen⟩

/-- `aliasedURI`: for each `[text](scheme:url)` match, Hide spans over `[` and
over `](url)`, a URIStyle span over the link text, and one `LinkData` entry. -/
def aliasedURI (s : Text) : List Decoration × List LinkData :=
  let ms := execAll aliasedURITryAt s
  (ms.flatMap fun m =>
    let lts := m.idx + 1
    let mps := lts + m.data.textLen
    let parent : Rng := ⟨m.idx, m.idx + m.len⟩
    [⟨⟨m.idx, lts⟩, parent, .hide⟩,
     ⟨⟨mps, m.idx + m.len⟩, parent, .hide⟩,
     ⟨⟨lts, mps⟩, parent, .uri⟩],
   ms.map (aliasedLinkOf s))

/-- `referenceURI`: for each `[text][ref]` match, Hide spans over the brackets
around the link text, and either a Hide span over the whole `[ref]` tail
(`hideFully`) or a DefaultColor span over it plus a SpaceAfter span when the
source had no whitespace between the bracket groups; a URIStyle span over the
link text.  The source declares a `linkData` array but never pushes to it. -/
def referenceURI (s : Text) (hideFully : Bool) :
    List Decoration × List LinkData :=
  ((execAll referenceURITryAt s).flatMap fun m =>
    let lts := m.idx + 1
    let lte := lts + m.data.textLen
    let parent : Rng := ⟨m.idx, m.idx + m.len⟩
    let openB : Decoration := ⟨⟨m.idx, lts⟩, parent, .hide⟩
    let closeB : Decoration := ⟨⟨lte, lte + 1⟩, parent, .hide⟩
    let linkText : Decoration := ⟨⟨lts, lte⟩, parent, .uri⟩
    if hideFully then
      [openB, closeB, ⟨⟨lte + 1, m.idx + m.len⟩, parent, .hide⟩, linkText]
    else
      [openB, closeB, linkText,
       ⟨⟨lte + 1, m.idx + m.len⟩, parent, .defaultColor⟩] ++
      (if m.data.spaceLen == 0 then [⟨⟨lts, lte⟩, parent, .spaceAfter⟩] else []),
   [])

/-- `headings`: Hide spans over the `#` prefix (with one following blank) of
each heading, DefaultColor spans over the full heading matches, and size spans
over the full matches of the per-level patterns. -/
def headings (s : Text) : List Decoration :=
  ((execAll (headingTryAt hAllOK) s).filterMap fun m =>
    let pl := headingPrefixLen (seg s m.idx m.len)
    if pl == 0 then none
    else some (⟨⟨m.idx, m.idx + pl⟩, ⟨m.idx, m.idx + m.len⟩,
      .hide⟩ : Decoration)) ++
  (getFullMatchRanges s (headingTryAt hAllOK)).map
    (fun rp => ⟨rp.1, rp.2, .defaultColor⟩) ++
  (getFullMatchRanges s (headingTryAt h1OK)).map
    (fun rp => ⟨rp.1, rp.2, .xxl⟩) ++
  (getFullMatchRanges s (headingTryAt h2OK)).map
    (fun rp => ⟨rp.1, rp.2, .xl⟩) ++
  (getFullMatchRanges s (headingTryAt h3OK)).map
    (fun rp => ⟨rp.1, rp.2, .l⟩)

/-- `horizontalLine`: for each match, one HorizontalLine span over the rule
line, located with `fullMatch.lastIndexOf(leadingSpace + lineChars)` (`-1`
when not found, clamped to `0` by `positionAt`). -/
def horizontalLine (s : Text) : List Decoration :=
  (execAll hrTryAt s).map fun m =>
    let fullMatch := seg s m.idx m.len
    let pat := seg s (m.idx + m.data.pre) m.data.lead ++
      seg s (m.idx + m.data.pre + m.data.lead) m.data.run
    let lineContentStart : Int :=
      match lastIndexOfPos fullMatch pat with
      | some j => (j : Int)
      | none => -1
    let lineStart := ((m.idx : Int) + lineContentStart).toNat
    let lineEnd := lineStart + m.data.lead + m.data.run + m.data.trail
    ⟨⟨lineStart, lineEnd⟩, ⟨lineStart, lineEnd⟩, .horizontalLine⟩

/-! ### The `updateDecorations` pipeline -/

/-- The `markdownInlinePreview` configuration flags read by
`updateDecorations`. -/
structure Config where
  bold : Bool
  italic : Bool
  strikethrough : Bool
  inlineCode : Bool
  blockCode : Bool
  simpleURI : Bool
  headings : Bool
  horizontalLine : Bool
  aliasedURIs : Bool
  referenceURIs : Bool
  referenceURIsFully : Bool
deriving DecidableEq, Repr

/-- The defaults of the `config.get` calls: everything `true` except
`aliasedURIs`. -/
def defaultConfig : Config :=
  ⟨true, true, true, true, true, true, true, true, false, true, true⟩

/-- The configuration with every flag enabled (`aliasedURIs` turned on). -/
def aliasedConfig : Config :=
  ⟨true, true, true, true, true, true, true, true, true, true, true⟩

/-- `getCodeBlockRanges`: the full-match ranges of the fenced-code-block and
inline-code patterns, scanned with fresh regex instances. -/
def getCodeBlockRanges (s : Text) : List Rng :=
  (execAll blockCodeTryAt s).map (fun m => ⟨m.idx, m.idx + m.len⟩) ++
  (execAll inlineCodeTryAt s).map (fun m => ⟨m.idx, m.idx + m.len⟩)

/-- `Decorator.isInsideCodeBlock`: some code range `contains` the range. -/
def isInsideCodeBlock (r : Rng) (codeBlockRanges : List Rng) : Bool :=
  codeBlockRanges.any fun cr => cr.containsB r

/-- `isLineOfRangeSelected`: some selection's line span overlaps the range's
line span (`!(range.end.line < s.start.line || range.start.line >
s.end.line)`). -/
def isLineOfRangeSelected (s : Text) (sels : List Sel) (r : Rng) : Bool :=
  sels.any fun q =>
    !(decide (lineOf s r.stop < q.startLine) ||
      decide (lineOf s r.start > q.endLine))

/-- The `codeDecorations` array of `updateDecorations`: inline-code then
block-code decorations, when enabled. -/
def codeDecorations (s : Text) (cfg : Config) : List Decoration :=
  (if cfg.inlineCode then inlineCode s else []) ++
  (if cfg.blockCode then blockCode s else [])

/-- The `allDecorations` array of `updateDecorations`, in source push
order. -/
def allDecorations (s : Text) (cfg : Config) : List Decoration :=
  (if cfg.bold then bold s else []) ++
  (if cfg.italic then italic s else []) ++
  (if cfg.strikethrough then strikethrough s else []) ++
  (if cfg.simpleURI then simpleURI s else []) ++
  (if cfg.headings then headings s else []) ++
  (if cfg.horizontalLine then horizontalLine s else []) ++
  (if cfg.aliasedURIs then (aliasedURI s).1 else []) ++
  (if cfg.referenceURIs then (referenceURI s cfg.referenceURIsFully).1 else [])

/-- The `allLinks` array of `updateDecorations`. -/
def allLinks (s : Text) (cfg : Config) : List LinkData :=
  (if cfg.aliasedURIs then (aliasedURI s).2 else []) ++
  (if cfg.referenceURIs then (referenceURI s cfg.referenceURIsFully).2 else [])

/-- The decorations that reach the decoration map: code decorations filtered
by selection only, the others also by code-block containment. -/
def survivors (s : Text) (sels : List Sel) (cfg : Config) : List Decoration :=
  (codeDecorations s cfg).filter
    (fun d => !(isLineOfRangeSelected s sels d.parent)) ++
  (allDecorations s cfg).filter
    (fun d => !(isLineOfRangeSelected s sels d.parent) &&
      !(isInsideCodeBlock d.parent (getCodeBlockRanges s)))

/-- The range list accumulated in the decoration map for one decoration
type. -/
def survivingRanges (s : Text) (sels : List Sel) (cfg : Config)
    (k : DecorationKind) : List Rng :=
  (survivors s sels cfg).filterMap fun d =>
    if d.type = k then some d.range else none

def dedupFirstAux (seen : List DecorationKind) :
    List DecorationKind → List DecorationKind
  | [] => []
  | k :: t =>
    if k ∈ seen then dedupFirstAux seen t
    else k :: dedupFirstAux (k :: seen) t

/-- The keys of a JS `Map` built by insertion: first-occurrence order,
without duplicates. -/
def dedupFirst (l : List DecorationKind) : List DecorationKind :=
  dedupFirstAux [] l

/-- The decoration types present in the decoration map: only types with at
least one surviving decoration are ever inserted. -/
def appliedKinds (s : Text) (sels : List Sel) (cfg : Config) :
    List DecorationKind :=
  dedupFirst ((survivors s sels cfg).map (fun d => d.type))

/-- The `setDecorations` calls issued by `decorationMap.forEach`: one call per
map entry, in insertion order. -/
def updateCalls (s : Text) (sels : List Sel) (cfg : Config) :
    List (DecorationKind × List Rng) :=
  (appliedKinds s sels cfg).map fun k => (k, survivingRanges s sels cfg k)

/-- The link list assigned to the link provider: `allLinks` filtered by
selection and code-block containment of the link range. -/
def publishedLinks (s : Text) (sels : List Sel) (cfg : Config) :
    List LinkData :=
  (allLinks s cfg).filter fun lk =>
    !(isLineOfRangeSelected s sels lk.range) &&
    !(isInsideCodeBlock lk.range (getCodeBlockRanges s))

/-! ### Concrete example documents -/

def docInline : Text := "`x`".toList

def docBold : Text := "**a**".toList

def docRef : Text := "[text][ref]".toList

def docFence44 : Text := "````\nx\n````\n".toList

def docFence43 : Text := "````\nx\n```\n".toList

def docFenceJs : Text := "```js\nlet\n```\n".toList

def docHeadings : Text := "# t\n#### u\n#5\n### v".toList

def docAliased : Text := "[a](h:x)".toList

def docHr : Text := "a\n\n---\n\nb".toList

/-! ### The recompute with explicit regex `lastIndex` state -/

/-- The `lastIndex` fields of the module-level global regex objects of
`decorator.ts` (one per regex constant; `getCodeBlockRanges` constructs fresh
instances with `new RegExp(...)`, so it reads none of these). -/
structure RegexState where
  boldLI : Nat
  italicLI : Nat
  strikethroughLI : Nat
  inlineCodeLI : Nat
  blockCodeLI : Nat
  simpleURILI : Nat
  aliasedURILI : Nat
  referenceURILI : Nat
  hAllLI : Nat
  h1LI : Nat
  h2LI : Nat
  h3LI : Nat
  hrLI : Nat
deriving DecidableEq, Repr

/-- The state of freshly created regex objects: every `lastIndex` is `0`. -/
def initialRegexState : RegexState := ⟨0, 0, 0, 0, 0, 0, 0, 0, 0, 0, 0, 0, 0⟩

/-- `getSymmetricHideRanges` with the regex's incoming `lastIndex`
threaded. -/
def getSymmetricHideRangesS (s : Text) (tryAt : Scanner (Nat × Nat))
    (li : Nat) : List (Rng × Rng) × Nat :=
  let r := execAllFrom tryAt s li
  (r.1.flatMap fun m =>
    let parent : Rng := ⟨m.idx, m.idx + m.len⟩
    [(⟨m.idx, m.idx + m.data.1⟩, parent),
     (⟨m.idx + m.len - m.data.2, m.idx + m.len⟩, parent)], r.2)

/-- `getFullMatchRanges` with the regex's incoming `lastIndex` threaded. -/
def getFullMatchRangesS (s : Text) (tryAt : Scanner α) (li : Nat) :
    List (Rng × Rng) × Nat :=
  let r := execAllFrom tryAt s li
  (r.1.map fun m => (⟨m.idx, m.idx + m.len⟩, ⟨m.idx, m.idx + m.len⟩), r.2)

def boldS (s : Text) (li : Nat) : List Decoration × Nat :=
  let a := getSymmetricHideRangesS s boldTryAt li
  let b := getFullMatchRangesS s boldTryAt a.2
  (a.1.map (fun rp => ⟨rp.1, rp.2, .hide⟩) ++
   b.1.map (fun rp => ⟨rp.1, rp.2, .defaultColor⟩), b.2)

def italicS (s : Text) (li : Nat) : List Decoration × Nat :=
  let a := getSymmetricHideRangesS s italicTryAt li
  let b := getFullMatchRangesS s italicTryAt a.2
  (a.1.map (fun rp => ⟨rp.1, rp.2, .hide⟩) ++
   b.1.map (fun rp => ⟨rp.1, rp.2, .defaultColor⟩), b.2)

def strikethroughS (s : Text) (li : Nat) : List Decoration × Nat :=
  let a := getSymmetricHideRangesS s strikethroughTryAt li
  (a.1.map (fun rp => ⟨rp.1, rp.2, .hide⟩), a.2)

def inlineCodeS (s : Text) (li : Nat) : List Decoration × Nat :=
  let a := getSymmetricHideRangesS s inlineCodeTryAt li
  (a.1.map (fun rp => ⟨rp.1, rp.2, .hide⟩), a.2)

def blockCodeS (s : Text) (li : Nat) : List Decoration × Nat :=
  let a := getSymmetricHideRangesS s blockCodeTryAt li
  (a.1.map (fun rp => ⟨rp.1, rp.2, .hide⟩), a.2)

def simpleURIS (s : Text) (li : Nat) : List Decoration × Nat :=
  let a := getSymmetricHideRangesS s simpleURITryAt li
  (a.1.map (fun rp => ⟨rp.1, rp.2, .hide⟩), a.2)

def aliasedURIS (s : Text) (li : Nat) :
    (List Decoration × List LinkData) × Nat :=
  let r := execAllFrom aliasedURITryAt s li
  ((r.1.flatMap fun m =>
      let lts := m.idx + 1
      let mps := lts + m.data.textLen
      let parent : Rng := ⟨m.idx, m.idx + m.len⟩
      [⟨⟨m.idx, lts⟩, parent, .hide⟩,
       ⟨⟨mps, m.idx + m.len⟩, parent, .hide⟩,
       ⟨⟨lts, mps⟩, parent, .uri⟩],
    r.1.map (aliasedLinkOf s)), r.2)

def referenceURIS (s : Text) (hideFully : Bool) (li : Nat) :
    (List Decoration × List LinkData) × Nat :=
  let r := execAllFrom referenceURITryAt s li
  ((r.1.flatMap fun m =>
      let lts := m.idx + 1
      let lte := lts + m.data.textLen
      let parent : Rng := ⟨m.idx, m.idx + m.len⟩
      let openB : Decoration := ⟨⟨m.idx, lts⟩, parent, .hide⟩
      let closeB : Decoration := ⟨⟨lte, lte + 1⟩, parent, .hide⟩
      let linkText : Decoration := ⟨⟨lts, lte⟩, parent, .uri⟩
      if hideFully then
        [openB, closeB, ⟨⟨lte + 1, m.idx + m.len⟩, parent, .hide⟩, linkText]
      else
        [openB, closeB, linkText,
         ⟨⟨lte + 1, m.idx + m.len⟩, parent, .defaultColor⟩] ++
        (if m.data.spaceLen == 0 then [⟨⟨lts, lte⟩, parent, .spaceAfter⟩]
         else []),
    []), r.2)

def headingsS (s : Text) (liAll li1 li2 li3 : Nat) :
    List Decoration × (Nat × Nat × Nat × Nat) :=
  let a := execAllFrom (headingTryAt hAllOK) s liAll
  let b := getFullMatchRangesS s (headingTryAt hAllOK) a.2
  let c1 := getFullMatchRangesS s (headingTryAt h1OK) li1
  let c2 := getFullMatchRangesS s (headingTryAt h2OK) li2
  let c3 := getFullMatchRangesS s (headingTryAt h3OK) li3
  ((a.1.filterMap fun m =>
      let pl := headingPrefixLen (seg s m.idx m.len)
      if pl == 0 then none
      else some (⟨⟨m.idx, m.idx + pl⟩, ⟨m.idx, m.idx + m.len⟩,
        .hide⟩ : Decoration)) ++
   b.1.map (fun rp => ⟨rp.1, rp.2, .defaultColor⟩) ++
   c1.1.map (fun rp => ⟨rp.1, rp.2, .xxl⟩) ++
   c2.1.map (fun rp => ⟨rp.1, rp.2, .xl⟩) ++
   c3.1.map (fun rp => ⟨rp.1, rp.2, .l⟩),
   (b.2, c1.2, c2.2, c3.2))

def horizontalLineS (s : Text) (li : Nat) : List Decoration × Nat :=
  let r := execAllFrom hrTryAt s li
  (r.1.map (fun m =>
    let fullMatch := seg s m.idx m.len
    let pat := seg s (m.idx + m.data.pre) m.data.lead ++
      seg s (m.idx + m.data.pre + m.data.lead) m.data.run
    let lineContentStart : Int :=
      match lastIndexOfPos fullMatch pat with
      | some j => (j : Int)
      | none => -1
    let lineStart := ((m.idx : Int) + lineContentStart).toNat
    let lineEnd := lineStart + m.data.lead + m.data.run + m.data.trail
    (⟨⟨lineStart, lineEnd⟩, ⟨lineStart, lineEnd⟩,
      .horizontalLine⟩ : Decoration)), r.2)

/-- One `updateDecorations` recompute with the regex `lastIndex` state made
explicit: matchers run in source order, each conditional on its configuration
flag; the result is the list of `setDecorations` calls, the published link
list, and the regex state after the pass. -/
def updateDecorationsS (s : Text) (sels : List Sel) (cfg : Config)
    (σ : RegexState) :
    (List (DecorationKind × List Rng) × List LinkData) × RegexState :=
  let codeBlockRanges := getCodeBlockRanges s
  let boldR := if cfg.bold then boldS s σ.boldLI else ([], σ.boldLI)
  let italicR := if cfg.italic then italicS s σ.italicLI
    else ([], σ.italicLI)
  let strikeR := if cfg.strikethrough then
    strikethroughS s σ.strikethroughLI else ([], σ.strikethroughLI)
  let inlineR := if cfg.inlineCode then inlineCodeS s σ.inlineCodeLI
    else ([], σ.inlineCodeLI)
  let blockR := if cfg.blockCode then blockCodeS s σ.blockCodeLI
    else ([], σ.blockCodeLI)
  let simpleR := if cfg.simpleURI then simpleURIS s σ.simpleURILI
    else ([], σ.simpleURILI)
  let headR := if cfg.headings then
    headingsS s σ.hAllLI σ.h1LI σ.h2LI σ.h3LI
    else ([], (σ.hAllLI, σ.h1LI, σ.h2LI, σ.h3LI))
  let hrR := if cfg.horizontalLine then horizontalLineS s σ.hrLI
    else ([], σ.hrLI)
  let aliasedR := if cfg.aliasedURIs then aliasedURIS s σ.aliasedURILI
    else (([], []), σ.aliasedURILI)
  let refR := if cfg.referenceURIs then
    referenceURIS s cfg.referenceURIsFully σ.referenceURILI
    else (([], []), σ.referenceURILI)
  let codeDecs := inlineR.1 ++ blockR.1
  let allDecs := boldR.1 ++ italicR.1 ++ strikeR.1 ++ simpleR.1 ++
    headR.1 ++ hrR.1 ++ aliasedR.1.1 ++ refR.1.1
  let links := aliasedR.1.2 ++ refR.1.2
  let surv := codeDecs.filter
      (fun d => !(isLineOfRangeSelected s sels d.parent)) ++
    allDecs.filter (fun d => !(isLineOfRangeSelected s sels d.parent) &&
      !(isInsideCodeBlock d.parent codeBlockRanges))
  (((dedupFirst (surv.map (fun d => d.type))).map
      (fun k => (k, surv.filterMap
        (fun d => if d.type = k then some d.range else none))),
    links.filter (fun lk => !(isLineOfRangeSelected s sels lk.range) &&
      !(isInsideCodeBlock lk.range codeBlockRanges))),
   ⟨boldR.2, italicR.2, strikeR.2, inlineR.2, blockR.2, simpleR.2,
    aliasedR.2, refR.2, headR.2.1, headR.2.2.1, headR.2.2.2.1,
    headR.2.2.2.2, hrR.2⟩)

/-! ### Basic lemmas about the text primitives -/

theorem charAt?_lt_length {s : Text} {p : Nat} {c : Char}
    (h : charAt? s p = some c) : p < s.length := by
  have := List.get?_eq_some.mp h
  exact this.1

theorem charAt?_isSome_of_lt {s : Text} {p : Nat} (h : p < s.length) :
    ∃ c, charAt? s p = some c := by
  have h' := List.get?_eq_get h
  exact ⟨_, h'⟩

theorem countLeading_le (p : Char → Bool) (t : Text) :
    countLeading p t ≤ t.length := by
  induction t with
  | nil => simp [countLeading]
  | cons c tl ih =>
    simp only [countLeading, List.length_cons]
    split <;> omega

theorem countLeading_sat (p : Char → Bool) (t : Text) :
    ∀ k, k < countLeading p t → ∃ c, t.get? k = some c ∧ p c = true := by
  induction t with
  | nil => intro k hk; simp [countLeading] at hk
  | cons c tl ih =>
    intro k hk
    simp only [countLeading] at hk
    by_cases hpc : p c
    · simp only [hpc, if_true] at hk
      cases k with
      | zero => exact ⟨c, rfl, hpc⟩
      | succ k' => exact ih k' (by omega)
    · simp [hpc] at hk

theorem countLeading_stop (p : Char → Bool) (t : Text) {c : Char}
    (h : t.get? (countLeading p t) = some c) : p c = false := by
  induction t with
  | nil => simp at h
  | cons c0 tl ih =>
    simp only [countLeading] at h
    by_cases hpc : p c0
    · simp only [hpc, if_true] at h
      exact ih h
    · simp only [hpc, if_false] at h
      simp only [List.get?] at h
      cases h
      simpa using hpc

theorem runLen_le (p : Char → Bool) (s : Text) (i : Nat) :
    i + runLen p s i ≤ s.length ∨ runLen p s i = 0 := by
  have h := countLeading_le p (s.drop i)
  simp only [runLen]
  rw [List.length_drop] at h
  omega

theorem runLen_sat (p : Char → Bool) (s : Text) (i : Nat) :
    ∀ k, k < runLen p s i → ∃ c, charAt? s (i + k) = some c ∧ p c = true := by
  intro k hk
  obtain ⟨c, hc, hpc⟩ := countLeading_sat p (s.drop i) k hk
  rw [List.get?_drop] at hc
  exact ⟨c, hc, hpc⟩

theorem runLen_stop (p : Char → Bool) (s : Text) (i : Nat) {c : Char}
    (h : charAt? s (i + runLen p s i) = some c) : p c = false := by
  apply countLeading_stop p (s.drop i)
  rw [List.get?_drop]
  exact h

/-- A run is bounded by the text length whenever its end has a character. -/
theorem runLen_end_le (p : Char → Bool) (s : Text) (i : Nat) :
    runLen p s i ≤ s.length - i := by
  have h := countLeading_le p (s.drop i)
  simpa [runLen] using h

theorem seg_get? (s : Text) (i n k : Nat) (hk : k < n) :
    (seg s i n).get? k = charAt? s (i + k) := by
  simp only [seg, charAt?]
  rw [List.get?_take hk, List.get?_drop]

theorem seg_length (s : Text) (i n : Nat) :
    (seg s i n).length = min n (s.length - i) := by
  simp [seg]

theorem seg_full_le {s : Text} {i n : Nat} (h : (seg s i n).length = n)
    (hn : 1 ≤ n) : i + n ≤ s.length := by
  rw [seg_length] at h
  omega

/-- Characters of a segment known as an explicit list. -/
theorem seg_char {s : Text} {i n : Nat} {l : Text} (h : seg s i n = l)
    {k : Nat} (hk : k < n) :
    charAt? s (i + k) = l.get? k := by
  rw [← seg_get? s i n k hk, h]

theorem findMinLen_spec {P : Nat → Bool} :
    ∀ {lo fuel L : Nat}, findMinLen P lo fuel = some L →
      P L = true ∧ lo ≤ L := by
  intro lo fuel
  induction fuel generalizing lo with
  | zero => intro L h; simp [findMinLen] at h
  | succ n ih =>
    intro L h
    simp only [findMinLen] at h
    by_cases hp : P lo
    · simp only [hp, if_true] at h
      cases h
      exact ⟨hp, Nat.le_refl _⟩
    · simp only [hp, if_false] at h
      have := ih h
      exact ⟨this.1, by omega⟩

theorem symContentOK_spec {bad : Char → Bool} {s : Text} {j L : Nat}
    (h : symContentOK bad s j L = true) :
    (∃ c, charAt? s j = some c ∧ bad c = false) ∧
    (∃ c, charAt? s (j + L - 1) = some c ∧ bad c = false) ∧
    (∀ k, k < L - 1 → ∃ c, charAt? s (j + k) = some c ∧ isDotB c = true) := by
  simp only [symContentOK, Bool.and_eq_true, List.all_eq_true] at h
  obtain ⟨⟨h1, h2⟩, h3⟩ := h
  refine ⟨?_, ?_, ?_⟩
  · cases hc : charAt? s j with
    | some c => exact ⟨c, rfl, by rw [hc] at h1; simpa using h1⟩
    | none => rw [hc] at h1; simp at h1
  · cases hc : charAt? s (j + L - 1) with
    | some c => exact ⟨c, rfl, by rw [hc] at h2; simpa using h2⟩
    | none => rw [hc] at h2; simp at h2
  · intro k hk
    have := h3 k (List.mem_range.mpr hk)
    cases hc : charAt? s (j + k) with
    | some c => exact ⟨c, rfl, by rw [hc] at this; simpa using this⟩
    | none => rw [hc] at this; simp at this

/-! ### Lemmas about the `exec` loop -/

/-- Every match of the scanner is nonempty and lies inside the text.  All the
patterns of `decorator.ts` satisfy this. -/
def Progress (tryAt : Scanner α) : Prop :=
  ∀ s j l a, tryAt s j = some (l, a) → 1 ≤ l ∧ j + l ≤ s.length

theorem firstFromAux_spec {tryAt : Scanner α} {s : Text} :
    ∀ {fuel j : Nat} {m : RMatch α}, firstFromAux tryAt s j fuel = some m →
      j ≤ m.idx ∧ m.idx < j + fuel ∧ tryAt s m.idx = some (m.len, m.data) ∧
      (∀ j', j ≤ j' → j' < m.idx → tryAt s j' = none) := by
  intro fuel
  induction fuel with
  | zero => intro j m h; simp [firstFromAux] at h
  | succ n ih =>
    intro j m h
    rw [firstFromAux] at h
    cases htry : tryAt s j with
    | some la =>
      rw [htry] at h
      cases la with
      | mk l a =>
        cases h
        refine ⟨Nat.le_refl _, ?_, htry, fun j' h1 h2 => ?_⟩
        · show j < j + (n + 1)
          omega
        · have h2' : j' < j := h2
          exact absurd h1 (by omega)
    | none =>
      rw [htry] at h
      obtain ⟨ha, hb, hc, hd⟩ := ih h
      refine ⟨by omega, by omega, hc, fun j' h1 h2 => ?_⟩
      rcases Nat.eq_or_lt_of_le h1 with rfl | hlt
      · exact htry
      · exact hd j' hlt h2

theorem firstFromAux_none {tryAt : Scanner α} {s : Text} :
    ∀ {fuel j : Nat}, firstFromAux tryAt s j fuel = none →
      ∀ j', j ≤ j' → j' < j + fuel → tryAt s j' = none := by
  intro fuel
  induction fuel with
  | zero => intro j _ j' _ h2; omega
  | succ n ih =>
    intro j h j' h1 h2
    rw [firstFromAux] at h
    cases htry : tryAt s j with
    | some la => rw [htry] at h; cases la; simp at h
    | none =>
      rw [htry] at h
      rcases Nat.eq_or_lt_of_le h1 with rfl | hlt
      · exact htry
      · exact ih h j' hlt (by omega)

theorem firstFrom_spec {tryAt : Scanner α} {s : Text} {i : Nat} {m : RMatch α}
    (h : firstFrom tryAt s i = some m) :
    i ≤ m.idx ∧ tryAt s m.idx = some (m.len, m.data) ∧
    (∀ j', i ≤ j' → j' < m.idx → tryAt s j' = none) := by
  obtain ⟨h1, _, h3, h4⟩ := firstFromAux_spec h
  exact ⟨h1, h3, h4⟩

theorem firstFrom_none {tryAt : Scanner α} {s : Text} {i : Nat}
    (h : firstFrom tryAt s i = none) :
    ∀ j', i ≤ j' → j' ≤ s.length → tryAt s j' = none := by
  intro j' h1 h2
  exact firstFromAux_none h j' h1 (by omega)

theorem mem_execAllAux {tryAt : Scanner α} {s : Text} :
    ∀ {fuel i : Nat} {m : RMatch α}, m ∈ (execAllAux tryAt s i fuel).1 →
      i ≤ m.idx ∧ tryAt s m.idx = some (m.len, m.data) := by
  intro fuel
  induction fuel with
  | zero => intro i m h; simp [execAllAux] at h
  | succ n ih =>
    intro i m h
    rw [execAllAux] at h
    cases hf : firstFrom tryAt s i with
    | none => rw [hf] at h; simp at h
    | some m0 =>
      rw [hf] at h
      simp only [List.mem_cons] at h
      obtain ⟨h1, h2, _⟩ := firstFrom_spec hf
      rcases h with rfl | h
      · exact ⟨h1, h2⟩
      · have := ih h
        exact ⟨by omega, this.2⟩

/-- Every collected match starts at a position where the scanner succeeds. -/
theorem mem_execAll {tryAt : Scanner α} {s : Text} {m : RMatch α}
    (h : m ∈ execAll tryAt s) : tryAt s m.idx = some (m.len, m.data) :=
  (mem_execAllAux h).2

/-- A `while exec` loop that scans to completion leaves `lastIndex = 0`:
the final `exec` call fails and resets it. -/
theorem execAllAux_snd {tryAt : Scanner α} (hP : Progress tryAt) (s : Text) :
    ∀ (fuel i : Nat), s.length + 1 - i ≤ fuel → 1 ≤ fuel →
      (execAllAux tryAt s i fuel).2 = 0 := by
  intro fuel
  induction fuel with
  | zero => intro i _ h; omega
  | succ n ih =>
    intro i hfe _
    rw [execAllAux]
    cases hf : firstFrom tryAt s i with
    | none => simp
    | some m =>
      simp only
      obtain ⟨h1, h2, _⟩ := firstFrom_spec hf
      obtain ⟨hl, hle⟩ := hP s m.idx m.len m.data h2
      exact ih (m.idx + m.len) (by omega) (by omega)

theorem execAllFrom_zero {tryAt : Scanner α} (hP : Progress tryAt) (s : Text) :
    execAllFrom tryAt s 0 = (execAll tryAt s, 0) := by
  have h2 : (execAllFrom tryAt s 0).2 = 0 :=
    execAllAux_snd hP s (s.length + 1) 0 (by omega) (by omega)
  have h1 : (execAllFrom tryAt s 0).1 = execAll tryAt s := rfl
  exact Prod.ext h1 h2

/-- Two successful starts of one scanner never overlap (the later start lies
at or beyond the end of the earlier match).  The heading patterns satisfy
this because their matches stay within a single line. -/
def StartSeparated (tryAt : Scanner α) (s : Text) : Prop :=
  ∀ j j' l a l' a', tryAt s j = some (l, a) → tryAt s j' = some (l', a') →
    j < j' → j + l ≤ j'

theorem tryAt_mem_execAllAux {tryAt : Scanner α} {s : Text}
    (hP : Progress tryAt) (hC : StartSeparated tryAt s) {j l : Nat} {a : α}
    (h : tryAt s j = some (l, a)) :
    ∀ (fuel i : Nat), i ≤ j → s.length + 1 - i ≤ fuel →
      (⟨j, l, a⟩ : RMatch α) ∈ (execAllAux tryAt s i fuel).1 := by
  have hjb : j + l ≤ s.length := (hP s j l a h).2
  have hl1 : 1 ≤ l := (hP s j l a h).1
  intro fuel
  induction fuel with
  | zero => intro i hij hfe; omega
  | succ n ih =>
    intro i hij hfe
    rw [execAllAux]
    cases hf : firstFrom tryAt s i with
    | none =>
      exfalso
      have := firstFrom_none hf j hij (by omega)
      rw [this] at h
      exact Option.noConfusion h
    | some m =>
      simp only [List.mem_cons]
      obtain ⟨h1, h2, h3⟩ := firstFrom_spec hf
      rcases Nat.lt_trichotomy m.idx j with hlt | heq | hgt
      · right
        have hsep := hC m.idx j m.len m.data l a h2 h hlt
        have := hP s m.idx m.len m.data h2
        exact ih (m.idx + m.len) hsep (by omega)
      · subst heq
        left
        rw [h2] at h
        cases h
        rfl
      · exfalso
        have := h3 j hij hgt
        rw [this] at h
        exact Option.noConfusion h

/-- Completeness of the scan for non-overlapping patterns: every successful
start is collected. -/
theorem tryAt_mem_execAll {tryAt : Scanner α} {s : Text}
    (hP : Progress tryAt) (hC : StartSeparated tryAt s) {j l : Nat} {a : α}
    (h : tryAt s j = some (l, a)) :
    (⟨j, l, a⟩ : RMatch α) ∈ execAll tryAt s :=
  tryAt_mem_execAllAux hP hC h (s.length + 1) 0 (by omega) (by omega)

/-! ### Lines -/

theorem lineOf_succ (s : Text) (p : Nat) :
    lineOf s (p + 1) =
      lineOf s p + (if charAt? s p = some '\n' then 1 else 0) := by
  have hch : charAt? s p = s[p]? := List.get?_eq_getElem? s p
  simp only [lineOf, List.take_succ, List.filter_append, List.length_append,
    hch]
  congr 1
  cases hc : s[p]? with
  | none => simp
  | some c =>
    simp only [Option.toList_some]
    by_cases h : c = '\n'
    · subst h; simp
    · simp [h]

theorem lineOf_eq_of_no_newline {s : Text} {a b : Nat} (hab : a ≤ b)
    (h : ∀ p, a ≤ p → p < b → charAt? s p ≠ some '\n') :
    lineOf s a = lineOf s b := by
  induction b, hab using Nat.le_induction with
  | base => rfl
  | succ b hb ih =>
    rw [lineOf_succ]
    have hb' := h b hb (by omega)
    rw [if_neg hb']
    simpa using ih (fun p h1 h2 => h p h1 (by omega))

/-! ### Character-class implications -/

theorem isJsWsB_of_isLineTermB {c : Char} (h : isLineTermB c = true) :
    isJsWsB c = true := by
  simp only [isLineTermB, Bool.or_eq_true, decide_eq_true_eq] at h
  rcases h with ((rfl | rfl) | rfl) | rfl <;> decide

theorem isLineTermB_eq_false_of_ws {c : Char} (h : isJsWsB c = false) :
    isLineTermB c = false := by
  cases hlt : isLineTermB c with
  | false => rfl
  | true => rw [isJsWsB_of_isLineTermB hlt] at h; exact h

theorem ne_newline_of_isLineTermB_eq_false {c : Char}
    (h : isLineTermB c = false) : c ≠ '\n' := by
  intro hc
  subst hc
  simp [isLineTermB] at h

theorem isLineTermB_eq_false_of_isDotB {c : Char} (h : isDotB c = true) :
    isLineTermB c = false := by
  simpa [isDotB] using h

theorem isLineTermB_eq_false_of_isSpaceTabB {c : Char}
    (h : isSpaceTabB c = true) : isLineTermB c = false := by
  simp only [isSpaceTabB, Bool.or_eq_true, decide_eq_true_eq] at h
  rcases h with rfl | rfl <;> decide

theorem isLineTermB_eq_false_of_isHashB {c : Char} (h : isHashB c = true) :
    isLineTermB c = false := by
  simp only [isHashB, decide_eq_true_eq] at h
  subst h; decide

theorem ne_newline_of_isAsciiLetterB {c : Char}
    (h : isAsciiLetterB c = true) : c ≠ '\n' := by
  intro hc; subst hc; simp [isAsciiLetterB] at h

theorem ne_newline_of_isSchemeCharB {c : Char}
    (h : isSchemeCharB c = true) : c ≠ '\n' := by
  intro hc; subst hc; simp [isSchemeCharB, isAsciiLetterB, isDigitB] at h

theorem ne_newline_of_isParenURICharB {c : Char}
    (h : isParenURICharB c = true) : c ≠ '\n' := by
  intro hc; subst hc; simp [isParenURICharB, isJsWsB] at h

theorem isLineTermB_eq_false_of_isSchemeCharB {c : Char}
    (h : isSchemeCharB c = true) : isLineTermB c = false := by
  cases hx : isLineTermB c with
  | false => rfl
  | true =>
    simp only [isLineTermB, Bool.or_eq_true, decide_eq_true_eq] at hx
    rcases hx with ((rfl | rfl) | rfl) | rfl <;> exact absurd h (by decide)

theorem isLineTermB_eq_false_of_isAsciiLetterB {c : Char}
    (h : isAsciiLetterB c = true) : isLineTermB c = false := by
  cases hx : isLineTermB c with
  | false => rfl
  | true =>
    simp only [isLineTermB, Bool.or_eq_true, decide_eq_true_eq] at hx
    rcases hx with ((rfl | rfl) | rfl) | rfl <;> exact absurd h (by decide)

theorem isLineTermB_eq_false_of_isAngleURICharB {c : Char}
    (h : isAngleURICharB c = true) : isLineTermB c = false := by
  simp only [isAngleURICharB, Bool.and_eq_true] at h
  exact isLineTermB_eq_false_of_ws (by simpa using h.1.1)

theorem isLineTermB_eq_false_of_notbad {bad : Char → Bool} {c : Char}
    (hws : ∀ x, isJsWsB x = true → bad x = true) (h : bad c = false) :
    isLineTermB c = false := by
  apply isLineTermB_eq_false_of_ws
  cases hw : isJsWsB c with
  | false => rfl
  | true => rw [hws c hw] at h; exact h

theorem badStarB_of_ws : ∀ x, isJsWsB x = true → badStarB x = true := by
  intro x h; simp [badStarB, h]

theorem badTildeB_of_ws : ∀ x, isJsWsB x = true → badTildeB x = true := by
  intro x h; simp [badTildeB, h]

theorem badTickB_of_ws : ∀ x, isJsWsB x = true → badTickB x = true := by
  intro x h; simp [badTickB, h]

/-! ### Structure of the symmetric matchers -/

theorem boldTryAt_spec {s : Text} {i l : Nat} {g : Nat × Nat}
    (h : boldTryAt s i = some (l, g)) :
    g = (2, 2) ∧ ∃ L, l = 2 + L + 2 ∧ 1 ≤ L ∧
      symContentOK badStarB s (i+2) L = true ∧
      seg s (i+2+L) 2 = seg s i 2 ∧
      (seg s i 2 = ['*', '*'] ∨ seg s i 2 = ['_', '_']) := by
  simp only [boldTryAt] at h
  split at h
  case isFalse => exact absurd h (by simp)
  case isTrue hcond =>
    cases hfm : findMinLen (fun L => symContentOK badStarB s (i+2) L &&
        (seg s (i+2+L) 2 == seg s i 2)) 1 (s.length + 1) with
    | none => rw [hfm] at h; exact absurd h (by simp)
    | some L =>
      rw [hfm] at h
      simp only [Option.some.injEq, Prod.mk.injEq] at h
      obtain ⟨hl, hg⟩ := h
      obtain ⟨hP, hL⟩ := findMinLen_spec hfm
      simp only [Bool.and_eq_true, beq_iff_eq] at hP
      simp only [Bool.or_eq_true, beq_iff_eq] at hcond
      exact ⟨hg.symm, L, hl.symm, hL, hP.1, hP.2, hcond⟩

theorem italicTryAt_spec {s : Text} {i l : Nat} {g : Nat × Nat}
    (h : italicTryAt s i = some (l, g)) :
    g = (1, 1) ∧ ∃ L d, l = 1 + L + 1 ∧ 1 ≤ L ∧
      charAt? s i = some d ∧ (d = '*' ∨ d = '_') ∧
      symContentOK badStarB s (i+1) L = true ∧
      charAt? s (i+1+L) = some d := by
  simp only [italicTryAt] at h
  split at h
  case isFalse => exact absurd h (by simp)
  case isTrue =>
    cases hci : charAt? s i with
    | none => rw [hci] at h; exact absurd h (by simp)
    | some d =>
      rw [hci] at h
      simp only at h
      split at h
      case isFalse => exact absurd h (by simp)
      case isTrue hd =>
        cases hfm : findMinLen (fun L => symContentOK badStarB s (i+1) L &&
            (charAt? s (i+1+L) == some d) &&
            lookNegB isStarUndB s (i+2+L)) 1 (s.length + 1) with
        | none => rw [hfm] at h; exact absurd h (by simp)
        | some L =>
          rw [hfm] at h
          simp only [Option.some.injEq, Prod.mk.injEq] at h
          obtain ⟨hl, hg⟩ := h
          obtain ⟨hP, hL⟩ := findMinLen_spec hfm
          simp only [Bool.and_eq_true, beq_iff_eq] at hP
          simp only [isStarUndB, Bool.or_eq_true, decide_eq_true_eq] at hd
          exact ⟨hg.symm, L, d, hl.symm, hL, rfl, hd, hP.1.1, hP.1.2⟩

theorem strikethroughTryAt_spec {s : Text} {i l : Nat} {g : Nat × Nat}
    (h : strikethroughTryAt s i = some (l, g)) :
    g = (2, 2) ∧ ∃ L, l = 2 + L + 2 ∧ 1 ≤ L ∧
      seg s i 2 = ['~', '~'] ∧
      symContentOK badTildeB s (i+2) L = true ∧
      seg s (i+2+L) 2 = ['~', '~'] := by
  simp only [strikethroughTryAt] at h
  split at h
  case isFalse => exact absurd h (by simp)
  case isTrue hcond =>
    cases hfm : findMinLen (fun L => symContentOK badTildeB s (i+2) L &&
        (seg s (i+2+L) 2 == ['~', '~']) &&
        lookNegB isTildeCB s (i+4+L)) 1 (s.length + 1) with
    | none => rw [hfm] at h; exact absurd h (by simp)
    | some L =>
      rw [hfm] at h
      simp only [Option.some.injEq, Prod.mk.injEq] at h
      obtain ⟨hl, hg⟩ := h
      obtain ⟨hP, hL⟩ := findMinLen_spec hfm
      simp only [Bool.and_eq_true, beq_iff_eq] at hP
      simp only [Bool.and_eq_true, beq_iff_eq] at hcond
      exact ⟨hg.symm, L, hl.symm, hL, hcond.2, hP.1.1, hP.1.2⟩

theorem inlineCodeTryAt_spec {s : Text} {i l : Nat} {g : Nat × Nat}
    (h : inlineCodeTryAt s i = some (l, g)) :
    g = (1, 1) ∧ ∃ L, l = 1 + L + 1 ∧ 1 ≤ L ∧
      charAt? s i = some '`' ∧
      symContentOK badTickB s (i+1) L = true ∧
      charAt? s (i+1+L) = some '`' := by
  simp only [inlineCodeTryAt] at h
  split at h
  case isFalse => exact absurd h (by simp)
  case isTrue hcond =>
    cases hfm : findMinLen (fun L => symContentOK badTickB s (i+1) L &&
        (charAt? s (i+1+L) == some '`')) 1 (s.length + 1) with
    | none => rw [hfm] at h; exact absurd h (by simp)
    | some L =>
      rw [hfm] at h
      simp only [Option.some.injEq, Prod.mk.injEq] at h
      obtain ⟨hl, hg⟩ := h
      obtain ⟨hP, hL⟩ := findMinLen_spec hfm
      simp only [Bool.and_eq_true, beq_iff_eq] at hP
      simp only [beq_iff_eq] at hcond
      exact ⟨hg.symm, L, hl.symm, hL, hcond, hP.1, hP.2⟩

theorem simpleURITryAt_spec {s : Text} {i l : Nat} {g : Nat × Nat}
    (h : simpleURITryAt s i = some (l, g)) :
    g = (1, 1) ∧ ∃ r1 r2 c0, l = 4 + r1 + r2 ∧ 1 ≤ r2 ∧
      charAt? s i = some '<' ∧
      charAt? s (i+1) = some c0 ∧ isAsciiLetterB c0 = true ∧
      r1 = runLen isSchemeCharB s (i+2) ∧
      charAt? s (i+2+r1) = some ':' ∧
      r2 = runLen isAngleURICharB s (i+3+r1) ∧
      charAt? s (i+3+r1+r2) = some '>' := by
  simp only [simpleURITryAt] at h
  split at h
  case isFalse => exact absurd h (by simp)
  case isTrue hlt =>
    cases hc0 : charAt? s (i+1) with
    | none => rw [hc0] at h; exact absurd h (by simp)
    | some c0 =>
      rw [hc0] at h
      simp only at h
      split at h
      case isFalse => exact absurd h (by simp)
      case isTrue hletter =>
        split at h
        case isFalse => exact absurd h (by simp)
        case isTrue hcolon =>
          split at h
          case isFalse => exact absurd h (by simp)
          case isTrue hend =>
            simp only [Option.some.injEq, Prod.mk.injEq] at h
            obtain ⟨hl, hg⟩ := h
            simp only [Bool.and_eq_true, beq_iff_eq, decide_eq_true_eq]
              at hlt hcolon hend
            exact ⟨hg.symm, runLen isSchemeCharB s (i+2),
              runLen isAngleURICharB s (i+3 + runLen isSchemeCharB s (i+2)),
              c0, by omega, hend.1, hlt, rfl, hletter, rfl, hcolon, rfl,
              hend.2⟩

/-- The lazy body search ends at a closing fence. -/
theorem blockBody_spec {s : Text} {f : Text} :
    ∀ {fuel p b : Nat}, blockBody s f p fuel = some b →
      seg s (p+b) 3 = f ∧ charAt? s (p+b+3) = some '\n' := by
  intro fuel
  induction fuel with
  | zero => intro p b h; simp [blockBody] at h
  | succ n ih =>
    intro p b h
    rw [blockBody] at h
    split at h
    next hcl =>
      simp only [Option.some.injEq] at h
      subst h
      simp only [Bool.and_eq_true, beq_iff_eq] at hcl
      exact ⟨hcl.1, hcl.2⟩
    next =>
      split at h
      next hnl =>
        simp only [Option.map_eq_some'] at h
        obtain ⟨b', hb', hbeq⟩ := h
        subst hbeq
        have hs := ih hb'
        constructor
        · have harith : p + (runLen isDotB s p + 1 + b') =
              p + runLen isDotB s p + 1 + b' := by omega
          rw [harith]
          exact hs.1
        · have harith : p + (runLen isDotB s p + 1 + b') + 3 =
              p + runLen isDotB s p + 1 + b' + 3 := by omega
          rw [harith]
          exact hs.2
      next => exact absurd h (by simp)

theorem blockCodeTryAt_spec {s : Text} {i l : Nat} {g : Nat × Nat}
    (h : blockCodeTryAt s i = some (l, g)) :
    ∃ w b, g = (4+w, 4) ∧ l = (4+w) + b + 4 ∧
      w = runLen isWordB s (i+3) ∧
      (seg s i 3 = ['`', '`', '`'] ∨ seg s i 3 = ['~', '~', '~']) ∧
      charAt? s (i+3+w) = some '\n' ∧
      seg s (i+4+w+b) 3 = seg s i 3 ∧
      charAt? s (i+4+w+b+3) = some '\n' := by
  simp only [blockCodeTryAt] at h
  split at h
  case isFalse => exact absurd h (by simp)
  case isTrue hf =>
    split at h
    case isFalse => exact absurd h (by simp)
    case isTrue hnl =>
      cases hbb : blockBody s (seg s i 3) (i+4+runLen isWordB s (i+3))
          (s.length + 1) with
      | none => rw [hbb] at h; exact absurd h (by simp)
      | some b =>
        rw [hbb] at h
        simp only [Option.some.injEq, Prod.mk.injEq] at h
        obtain ⟨hl, hg⟩ := h
        obtain ⟨hseg, hnl2⟩ := blockBody_spec hbb
        simp only [Bool.or_eq_true, beq_iff_eq] at hf
        simp only [beq_iff_eq] at hnl
        exact ⟨runLen isWordB s (i+3), b, by rw [← hg], hl.symm, rfl, hf,
          hnl, hseg, hnl2⟩

theorem aliasedURITryAt_spec {s : Text} {i l : Nat} {d : AliasedData}
    (h : aliasedURITryAt s i = some (l, d)) :
    ∃ c0 r1 r2, l = 6 + d.textLen + r1 + r2 ∧ 1 ≤ d.textLen ∧ 1 ≤ r2 ∧
      d.urlLen = 2 + r1 + r2 ∧
      charAt? s i = some '[' ∧
      d.textLen = runLen isNotCloseBracketB s (i+1) ∧
      charAt? s (i+1+d.textLen) = some ']' ∧
      charAt? s (i+2+d.textLen) = some '(' ∧
      charAt? s (i+3+d.textLen) = some c0 ∧ isAsciiLetterB c0 = true ∧
      r1 = runLen isSchemeCharB s (i+4+d.textLen) ∧
      charAt? s (i+4+d.textLen+r1) = some ':' ∧
      r2 = runLen isParenURICharB s (i+5+d.textLen+r1) ∧
      charAt? s (i+5+d.textLen+r1+r2) = some ')' := by
  simp only [aliasedURITryAt] at h
  split at h
  case isFalse => exact absurd h (by simp)
  case isTrue hopen =>
    split at h
    case isFalse => exact absurd h (by simp)
    case isTrue hbr =>
      cases hc0 : charAt? s (i+3+runLen isNotCloseBracketB s (i+1)) with
      | none => rw [hc0] at h; exact absurd h (by simp)
      | some c0 =>
        rw [hc0] at h
        simp only at h
        split at h
        case isFalse => exact absurd h (by simp)
        case isTrue hletter =>
          split at h
          case isFalse => exact absurd h (by simp)
          case isTrue hcolon =>
            split at h
            case isFalse => exact absurd h (by simp)
            case isTrue hend =>
              obtain ⟨dt, du⟩ := d
              dsimp only
              simp only [Option.some.injEq, Prod.mk.injEq,
                AliasedData.mk.injEq] at h
              obtain ⟨hl, hdt, hdu⟩ := h
              subst hdt
              subst hdu
              simp only [Bool.and_eq_true, beq_iff_eq, decide_eq_true_eq]
                at hopen hbr hcolon hend
              refine ⟨c0, runLen isSchemeCharB s
                  (i+4+runLen isNotCloseBracketB s (i+1)), _,
                by omega, hbr.1.1, hend.1, rfl, hopen, rfl, hbr.1.2, hbr.2,
                hc0, hletter, rfl, hcolon, rfl, hend.2⟩

theorem refSpace?_spec {s : Text} {k spl : Nat}
    (h : refSpace? s k = some spl) :
    spl ≤ 1 ∧ charAt? s (k+spl) = some '[' := by
  simp only [refSpace?] at h
  cases hck : charAt? s k with
  | none => rw [hck] at h; exact absurd h (by simp)
  | some c =>
    rw [hck] at h
    simp only at h
    split at h
    next hws =>
      split at h
      next hbr =>
        simp only [Option.some.injEq] at h
        subst h
        simp only [beq_iff_eq] at hbr
        exact ⟨Nat.le_refl 1, hbr⟩
      next => exact absurd h (by simp)
    next hnws =>
      split at h
      next hcb =>
        simp only [Option.some.injEq] at h
        subst h
        exact ⟨by omega, by subst hcb; exact hck⟩
      next => exact absurd h (by simp)

theorem referenceURITryAt_spec {s : Text} {i l : Nat} {d : ReferenceData}
    (h : referenceURITryAt s i = some (l, d)) :
    l = 4 + d.textLen + d.spaceLen + d.refLen ∧
      1 ≤ d.textLen ∧ 1 ≤ d.refLen ∧ d.spaceLen ≤ 1 ∧
      charAt? s i = some '[' ∧
      d.textLen = runLen isNotCloseBracketB s (i+1) ∧
      charAt? s (i+1+d.textLen) = some ']' ∧
      charAt? s (i+2+d.textLen+d.spaceLen) = some '[' ∧
      d.refLen = runLen isNotCloseBracketB s (i+2+d.textLen+d.spaceLen+1) ∧
      charAt? s (i+2+d.textLen+d.spaceLen+1+d.refLen) = some ']' := by
  obtain ⟨dt, dsp, dr⟩ := d
  dsimp only
  simp only [referenceURITryAt] at h
  split at h
  next hopen =>
    split at h
    next hbr =>
      cases hsp : refSpace? s (i+2+runLen isNotCloseBracketB s (i+1)) with
      | none => rw [hsp] at h; exact absurd h (by simp)
      | some spl =>
        rw [hsp] at h
        simp only at h
        split at h
        next hclose =>
          simp only [Option.some.injEq, Prod.mk.injEq,
            ReferenceData.mk.injEq] at h
          obtain ⟨hl, hdt, hdsp, hdr⟩ := h
          subst hdt
          subst hdsp
          subst hdr
          simp only [beq_iff_eq] at hopen
          simp only [Bool.and_eq_true, beq_iff_eq, decide_eq_true_eq]
            at hbr hclose
          obtain ⟨hsple, hspbr⟩ := refSpace?_spec hsp
          exact ⟨by omega, hbr.1, hclose.1, hsple, hopen, rfl, hbr.2,
            hspbr, rfl, hclose.2⟩
        next => exact absurd h (by simp)
    next => exact absurd h (by simp)
  next => exact absurd h (by simp)

/-- Structure of a heading match: indentation run, `#` run accepted by `hOK`,
then either end of line (the match is the prefix alone) or one blank and the
dot-run to the end of the line. -/
theorem headingTryAt_spec {hOK : Nat → Bool} {s : Text} {j l : Nat} {u : Unit}
    (h : headingTryAt hOK s j = some (l, u)) :
    isMLineStart s j = true ∧
    hOK (runLen isHashB s (j + runLen isSpaceTabB s j)) = true ∧
    ((l = runLen isSpaceTabB s j +
        runLen isHashB s (j + runLen isSpaceTabB s j) ∧
      (charAt? s (j + l) = none ∨
       ∃ c, charAt? s (j + l) = some c ∧ isLineTermB c = true)) ∨
     (∃ c, charAt? s
          (j + runLen isSpaceTabB s j +
            runLen isHashB s (j + runLen isSpaceTabB s j)) = some c ∧
        isSpaceTabB c = true ∧
        l = runLen isSpaceTabB s j +
          runLen isHashB s (j + runLen isSpaceTabB s j) + 1 +
          runLen isDotB s (j + runLen isSpaceTabB s j +
            runLen isHashB s (j + runLen isSpaceTabB s j) + 1))) := by
  simp only [headingTryAt] at h
  split at h
  next hls =>
    split at h
    next hok =>
      set ind := runLen isSpaceTabB s j with hind
      set hh := runLen isHashB s (j + ind) with hhh
      cases hc : charAt? s (j + ind + hh) with
      | none =>
        rw [hc] at h
        simp only [Option.some.injEq, Prod.mk.injEq] at h
        obtain ⟨hl, -⟩ := h
        subst hl
        refine ⟨hls, hok, Or.inl ⟨rfl, Or.inl ?_⟩⟩
        have harith : j + (ind + hh) = j + ind + hh := by omega
        rw [harith]
        exact hc
      | some c =>
        rw [hc] at h
        simp only at h
        split at h
        next hst =>
          simp only [Option.some.injEq, Prod.mk.injEq] at h
          obtain ⟨hl, -⟩ := h
          exact ⟨hls, hok, Or.inr ⟨c, rfl, hst, hl.symm⟩⟩
        next hnst =>
          split at h
          next hlt =>
            simp only [Option.some.injEq, Prod.mk.injEq] at h
            obtain ⟨hl, -⟩ := h
            subst hl
            refine ⟨hls, hok, Or.inl ⟨rfl, Or.inr ⟨c, ?_, hlt⟩⟩⟩
            have harith : j + (ind + hh) = j + ind + hh := by omega
            rw [harith]
            exact hc
          next => exact absurd h (by simp)
    next => exact absurd h (by simp)
  next => exact absurd h (by simp)

/-- `\r?\n` matches one of its two shapes. -/
theorem crlfAt_spec {s : Text} {p n : Nat} (h : crlfAt s p = some n) :
    (n = 1 ∧ charAt? s p = some '\n') ∨
    (n = 2 ∧ charAt? s p = some '\r') := by
  simp only [crlfAt] at h
  split at h
  next he =>
    simp only [Option.some.injEq] at h
    simp only [beq_iff_eq] at he
    exact Or.inl ⟨h.symm, he⟩
  next =>
    split at h
    next he =>
      simp only [Option.some.injEq] at h
      simp only [Bool.and_eq_true, beq_iff_eq] at he
      exact Or.inr ⟨h.symm, he.1⟩
    next => exact absurd h (by simp)

/-- Structure of a horizontal-line match. -/
theorem hrTryAt_spec {s : Text} {i l : Nat} {d : HRData}
    (h : hrTryAt s i = some (l, d)) :
    l = d.pre + d.lead + d.run + d.trail ∧ 2 ≤ d.pre ∧ 3 ≤ d.run ∧
      (d.runChar = '-' ∨ d.runChar = '*' ∨ d.runChar = '_') ∧
      d.lead = runLen isSpaceTabB s (i + d.pre) ∧
      d.run = runLen (fun x => x = d.runChar) s (i + d.pre + d.lead) ∧
      d.trail = runLen isSpaceTabB s (i + d.pre + d.lead + d.run) ∧
      charAt? s (i + d.pre + d.lead) = some d.runChar ∧
      ∃ e, charAt? s (i + l) = some e ∧ (e = '\n' ∨ e = '\r') := by
  obtain ⟨dpre, dlead, dchar, drun, dtrail⟩ := d
  dsimp only
  simp only [hrTryAt] at h
  cases h1 : crlfAt s i with
  | none => rw [h1] at h; exact absurd h (by simp)
  | some n1 =>
    rw [h1] at h
    simp only at h
    set w1 := runLen isSpaceTabB s (i + n1) with hw1
    cases h2 : crlfAt s (i + n1 + w1) with
    | none => rw [h2] at h; exact absurd h (by simp)
    | some n2 =>
      rw [h2] at h
      simp only at h
      set lead := runLen isSpaceTabB s (i + n1 + w1 + n2) with hldf
      cases h3 : charAt? s (i + n1 + w1 + n2 + lead) with
      | none => rw [h3] at h; exact absurd h (by simp)
      | some c =>
        rw [h3] at h
        simp only at h
        split at h
        next hc =>
          set run := runLen (fun x => x = c) s (i + n1 + w1 + n2 + lead)
            with hrdf
          split at h
          next hrun3 =>
            set trail := runLen isSpaceTabB s (i + n1 + w1 + n2 + lead + run)
              with htdf
            cases h4 : crlfAt s (i + n1 + w1 + n2 + lead + run + trail) with
            | none => rw [h4] at h; exact absurd h (by simp)
            | some m1 =>
              rw [h4] at h
              simp only at h
              cases h5 : crlfAt s (i + n1 + w1 + n2 + lead + run + trail +
                  m1 + runLen isSpaceTabB s
                    (i + n1 + w1 + n2 + lead + run + trail + m1)) with
              | none => rw [h5] at h; exact absurd h (by simp)
              | some m2 =>
                rw [h5] at h
                simp only [Option.some.injEq, Prod.mk.injEq,
                  HRData.mk.injEq] at h
                obtain ⟨hl, hfpre, hflead, hfchar, hfrun, hftrail⟩ := h
                subst hl
                subst hfchar
                subst hfpre
                subst hflead
                subst hfrun
                subst hftrail
                have hn1 : n1 = 1 ∨ n1 = 2 := by
                  rcases crlfAt_spec h1 with ⟨he, -⟩ | ⟨he, -⟩ <;> omega
                have hn2 : n2 = 1 ∨ n2 = 2 := by
                  rcases crlfAt_spec h2 with ⟨he, -⟩ | ⟨he, -⟩ <;> omega
                simp only [Bool.or_eq_true, decide_eq_true_eq] at hc
                simp only [decide_eq_true_eq] at hrun3
                refine ⟨by omega, by omega, hrun3, by tauto, ?_, ?_, ?_,
                  ?_, ?_⟩
                · rw [hldf]; congr 1; omega
                · rw [hrdf]; congr 2; omega
                · rw [htdf]; congr 1; omega
                · have harith : i + (n1 + w1 + n2) + lead =
                      i + n1 + w1 + n2 + lead := by omega
                  rw [harith]
                  exact h3
                · have harith : i + (n1 + w1 + n2 + lead + run + trail) =
                      i + n1 + w1 + n2 + lead + run + trail := by omega
                  rw [harith]
                  rcases crlfAt_spec h4 with ⟨-, he⟩ | ⟨-, he⟩
                  · exact ⟨'\n', he, Or.inl rfl⟩
                  · exact ⟨'\r', he, Or.inr rfl⟩
          next => exact absurd h (by simp)
        next => exact absurd h (by simp)

/-! ### Progress: every pattern's matches are nonempty and in bounds -/

theorem boldProgress : Progress boldTryAt := by
  intro s j l a h
  obtain ⟨-, L, hl, hL, -, hseg, hdelim⟩ := boldTryAt_spec h
  have hlen : (seg s (j+2+L) 2).length = 2 := by
    rcases hdelim with hd | hd <;> rw [hseg, hd] <;> rfl
  have := seg_full_le hlen (by omega)
  omega

theorem italicProgress : Progress italicTryAt := by
  intro s j l a h
  obtain ⟨-, L, d, hl, hL, -, -, -, hcl⟩ := italicTryAt_spec h
  have := charAt?_lt_length hcl
  omega

theorem strikethroughProgress : Progress strikethroughTryAt := by
  intro s j l a h
  obtain ⟨-, L, hl, hL, -, -, hseg⟩ := strikethroughTryAt_spec h
  have hlen : (seg s (j+2+L) 2).length = 2 := by rw [hseg]; rfl
  have := seg_full_le hlen (by omega)
  omega

theorem inlineCodeProgress : Progress inlineCodeTryAt := by
  intro s j l a h
  obtain ⟨-, L, hl, hL, -, -, hcl⟩ := inlineCodeTryAt_spec h
  have := charAt?_lt_length hcl
  omega

theorem blockCodeProgress : Progress blockCodeTryAt := by
  intro s j l a h
  obtain ⟨w, b, -, hl, -, -, -, -, hnl⟩ := blockCodeTryAt_spec h
  have := charAt?_lt_length hnl
  omega

theorem simpleURIProgress : Progress simpleURITryAt := by
  intro s j l a h
  obtain ⟨-, r1, r2, c0, hl, hr2, -, -, -, -, -, -, hend⟩ :=
    simpleURITryAt_spec h
  have := charAt?_lt_length hend
  omega

theorem aliasedURIProgress : Progress aliasedURITryAt := by
  intro s j l d h
  obtain ⟨c0, r1, r2, hl, ht, hr2, -, -, -, -, -, -, -, -, -, -, hend⟩ :=
    aliasedURITryAt_spec h
  have := charAt?_lt_length hend
  omega

theorem referenceURIProgress : Progress referenceURITryAt := by
  intro s j l d h
  obtain ⟨hl, ht, hr, hsp, -, -, -, -, -, hend⟩ := referenceURITryAt_spec h
  have := charAt?_lt_length hend
  omega

theorem headingProgress {hOK : Nat → Bool} (h0 : hOK 0 = false) :
    Progress (headingTryAt hOK) := by
  intro s j l a h
  obtain ⟨-, hok, hcase⟩ := headingTryAt_spec h
  have hind := runLen_end_le isSpaceTabB s j
  have hhh := runLen_end_le isHashB s (j + runLen isSpaceTabB s j)
  have hpos : 1 ≤ runLen isHashB s (j + runLen isSpaceTabB s j) := by
    by_contra hz
    have : runLen isHashB s (j + runLen isSpaceTabB s j) = 0 := by omega
    rw [this] at hok
    rw [h0] at hok
    exact Bool.noConfusion hok
  rcases hcase with ⟨hl, -⟩ | ⟨c, hcs, -, hl⟩
  · omega
  · have h1 := charAt?_lt_length hcs
    have hd := runLen_end_le isDotB s
      (j + runLen isSpaceTabB s j +
        runLen isHashB s (j + runLen isSpaceTabB s j) + 1)
    omega

theorem hAllProgress : Progress (headingTryAt hAllOK) :=
  headingProgress (by decide)

theorem h1Progress : Progress (headingTryAt h1OK) :=
  headingProgress (by decide)

theorem h2Progress : Progress (headingTryAt h2OK) :=
  headingProgress (by decide)

theorem h3Progress : Progress (headingTryAt h3OK) :=
  headingProgress (by decide)

theorem hrProgress : Progress hrTryAt := by
  intro s j l d h
  obtain ⟨hl, hpre, hrun, -, -, -, -, -, e, he, -⟩ := hrTryAt_spec h
  have := charAt?_lt_length he
  omega

/-! ### Pipeline membership lemmas -/

theorem isInsideCodeBlock_iff (r : Rng) (crs : List Rng) :
    isInsideCodeBlock r crs = true ↔
      ∃ cr ∈ crs, cr.start ≤ r.start ∧ r.stop ≤ cr.stop := by
  simp [isInsideCodeBlock, Rng.containsB, List.any_eq_true]

theorem mem_survivors_iff (s : Text) (sels : List Sel) (cfg : Config)
    (d : Decoration) :
    d ∈ survivors s sels cfg ↔
      ((d ∈ codeDecorations s cfg ∧
        isLineOfRangeSelected s sels d.parent = false) ∨
       (d ∈ allDecorations s cfg ∧
        isLineOfRangeSelected s sels d.parent = false ∧
        isInsideCodeBlock d.parent (getCodeBlockRanges s) = false)) := by
  simp only [survivors, List.mem_append, List.mem_filter,
    Bool.not_eq_true', Bool.and_eq_true]

theorem mem_survivingRanges_iff (s : Text) (sels : List Sel) (cfg : Config)
    (k : DecorationKind) (r : Rng) :
    r ∈ survivingRanges s sels cfg k ↔
      ∃ d, d ∈ survivors s sels cfg ∧ d.type = k ∧ d.range = r := by
  simp only [survivingRanges, List.mem_filterMap]
  constructor
  · rintro ⟨d, hd, hr⟩
    by_cases ht : d.type = k
    · rw [if_pos ht] at hr
      exact ⟨d, hd, ht, by simpa using hr⟩
    · rw [if_neg ht] at hr
      exact absurd hr (by simp)
  · rintro ⟨d, hd, ht, hr⟩
    exact ⟨d, hd, by rw [if_pos ht, hr]⟩

theorem mem_survivingRanges_of_code {s : Text} {sels : List Sel}
    {cfg : Config} {d : Decoration} (hd : d ∈ codeDecorations s cfg)
    (hsel : isLineOfRangeSelected s sels d.parent = false) :
    d.range ∈ survivingRanges s sels cfg d.type := by
  rw [mem_survivingRanges_iff]
  exact ⟨d, (mem_survivors_iff s sels cfg d).mpr (Or.inl ⟨hd, hsel⟩),
    rfl, rfl⟩

theorem survivingRanges_sound {s : Text} {sels : List Sel} {cfg : Config}
    {k : DecorationKind} {r : Rng} (h : r ∈ survivingRanges s sels cfg k) :
    ∃ d, (d ∈ codeDecorations s cfg ∨ d ∈ allDecorations s cfg) ∧
      d.type = k ∧ d.range = r ∧
      isLineOfRangeSelected s sels d.parent = false := by
  rw [mem_survivingRanges_iff] at h
  obtain ⟨d, hd, ht, hr⟩ := h
  rcases (mem_survivors_iff s sels cfg d).mp hd with ⟨h1, h2⟩ | ⟨h1, h2, -⟩
  · exact ⟨d, Or.inl h1, ht, hr, h2⟩
  · exact ⟨d, Or.inr h1, ht, hr, h2⟩

theorem not_mem_survivingRanges {s : Text} {sels : List Sel} {cfg : Config}
    {k : DecorationKind} {r : Rng}
    (h : ∀ d ∈ codeDecorations s cfg ++ allDecorations s cfg,
      d.range = r → d.type = k →
      isLineOfRangeSelected s sels d.parent = true) :
    r ∉ survivingRanges s sels cfg k := by
  intro hmem
  obtain ⟨d, hd, ht, hr, hsel⟩ := survivingRanges_sound hmem
  rw [h d (List.mem_append.mpr hd) hr ht] at hsel
  exact Bool.noConfusion hsel

theorem mem_publishedLinks_iff (s : Text) (sels : List Sel) (cfg : Config)
    (lk : LinkData) :
    lk ∈ publishedLinks s sels cfg ↔
      lk ∈ allLinks s cfg ∧
      isLineOfRangeSelected s sels lk.range = false ∧
      isInsideCodeBlock lk.range (getCodeBlockRanges s) = false := by
  simp only [publishedLinks, List.mem_filter, Bool.and_eq_true,
    Bool.not_eq_true']

/-! ### Decomposition of the matcher outputs -/

theorem mem_getSymmetricHideRanges {s : Text} {tryAt : Scanner (Nat × Nat)}
    {rp : Rng × Rng} (h : rp ∈ getSymmetricHideRanges s tryAt) :
    ∃ m ∈ execAll tryAt s, rp.2 = ⟨m.idx, m.idx + m.len⟩ ∧
      (rp.1 = ⟨m.idx, m.idx + m.data.1⟩ ∨
       rp.1 = ⟨m.idx + m.len - m.data.2, m.idx + m.len⟩) := by
  simp only [getSymmetricHideRanges, List.mem_flatMap] at h
  obtain ⟨m, hm, hin⟩ := h
  simp only [List.mem_cons, List.mem_singleton] at hin
  rcases hin with rfl | rfl | hfalse
  · exact ⟨m, hm, rfl, Or.inl rfl⟩
  · exact ⟨m, hm, rfl, Or.inr rfl⟩
  · exact absurd hfalse (by simp)

theorem mem_getSymmetricHideRanges_of {s : Text}
    {tryAt : Scanner (Nat × Nat)} {m : RMatch (Nat × Nat)}
    (hm : m ∈ execAll tryAt s) :
    ((⟨m.idx, m.idx + m.data.1⟩ : Rng),
      (⟨m.idx, m.idx + m.len⟩ : Rng)) ∈ getSymmetricHideRanges s tryAt ∧
    ((⟨m.idx + m.len - m.data.2, m.idx + m.len⟩ : Rng),
      (⟨m.idx, m.idx + m.len⟩ : Rng)) ∈ getSymmetricHideRanges s tryAt := by
  constructor <;>
  · simp only [getSymmetricHideRanges, List.mem_flatMap]
    exact ⟨m, hm, by simp⟩

theorem mem_getFullMatchRanges {s : Text} {tryAt : Scanner α}
    {rp : Rng × Rng} (h : rp ∈ getFullMatchRanges s tryAt) :
    ∃ m ∈ execAll tryAt s,
      rp.1 = ⟨m.idx, m.idx + m.len⟩ ∧ rp.2 = ⟨m.idx, m.idx + m.len⟩ := by
  simp only [getFullMatchRanges, List.mem_map] at h
  obtain ⟨m, hm, heq⟩ := h
  exact ⟨m, hm, by rw [← heq], by rw [← heq]⟩

/-! ### Claim theorems (first group) -/

/-- C1, counterexample: in the document `` `x` `` with a selection on line 0,
the inline-code matcher produces the backtick Hide span over offset 0 with
parent covering the whole construct, yet the Hide output of the recompute is
empty — the code-delimiter span was suppressed by the selection check,
contradicting the claim that such spans are never suppressed by it. -/
theorem C1_counterexample :
    (⟨⟨0, 1⟩, ⟨0, 3⟩, .hide⟩ : Decoration) ∈ inlineCode docInline ∧
    isLineOfRangeSelected docInline [⟨0, 0⟩] ⟨0, 3⟩ = true ∧
    survivingRanges docInline [⟨0, 0⟩] defaultConfig .hide = [] := by
  decide

/-- C1 (amended): code-delimiter Hide spans (inline-code backticks and fenced
fence lines) are exempt from code-block exclusion — whenever their parent's
line range overlaps no selection they reach the output, with no containment
test — but they are subject to the selection check like every other span:
a range all of whose producing spans have selection-overlapped parents is
absent from that kind's output. -/
theorem C1_amended (s : Text) (sels : List Sel) (cfg : Config) :
    (∀ d, d ∈ codeDecorations s cfg →
      isLineOfRangeSelected s sels d.parent = false →
      d.range ∈ survivingRanges s sels cfg d.type) ∧
    (∀ k r, (∀ d ∈ codeDecorations s cfg ++ allDecorations s cfg,
        d.range = r → d.type = k →
        isLineOfRangeSelected s sels d.parent = true) →
      r ∉ survivingRanges s sels cfg k) := by
  constructor
  · intro d hd hsel
    exact mem_survivingRanges_of_code hd hsel
  · intro k r h
    exact not_mem_survivingRanges h

/-- Witness for `C1_amended` at the document `` `x` ``: without a selection
the backtick Hide span survives; with a selection on line 0 it is gone. -/
theorem C1_amended_witness :
    (⟨0, 1⟩ : Rng) ∈ survivingRanges docInline [] defaultConfig .hide ∧
    (⟨0, 1⟩ : Rng) ∉ survivingRanges docInline [⟨0, 0⟩] defaultConfig .hide
    := by
  constructor
  · have h := (C1_amended docInline [] defaultConfig).1
      ⟨⟨0, 1⟩, ⟨0, 3⟩, .hide⟩ (by decide) (by decide)
    exact h
  · have h := (C1_amended docInline [⟨0, 0⟩] defaultConfig).2 .hide ⟨0, 1⟩
      (by decide)
    exact h

/-- C2, counterexample: the document `[text][ref]` contains a reference-link
construct and the matcher produces its decorations, but the `linkData` list it
returns is empty and the published link list is empty — no `LinkEntry` with
the link-text range is ever collected, contradicting the claim. -/
theorem C2_counterexample :
    (⟨⟨1, 5⟩, ⟨0, 11⟩, .uri⟩ : Decoration) ∈ (referenceURI docRef true).1 ∧
    (referenceURI docRef true).2 = [] ∧
    publishedLinks docRef [] defaultConfig = [] := by
  decide

/-- C2 (amended): with `referenceURIs` enabled the reference-link matcher
produces its bracket-hiding and link-text decorations for every
`[text][ref]` match, but yields no `LinkEntry` values at all: its `linkData`
array stays empty, so the link list handed to the link-navigation collaborator
consists of (filtered) aliased-link entries only. -/
theorem C2_amended :
    (∀ (s : Text) (hf : Bool), (referenceURI s hf).2 = []) ∧
    (∀ (s : Text) (cfg : Config), allLinks s cfg =
      if cfg.aliasedURIs then (aliasedURI s).2 else []) ∧
    (∀ (s : Text) (hf : Bool) (m : RMatch ReferenceData),
      m ∈ execAll referenceURITryAt s →
      (⟨⟨m.idx, m.idx + 1⟩, ⟨m.idx, m.idx + m.len⟩, .hide⟩ : Decoration) ∈
        (referenceURI s hf).1) := by
  refine ⟨fun s hf => rfl, fun s cfg => ?_, fun s hf m hm => ?_⟩
  · simp only [allLinks, referenceURI]
    cases h1 : cfg.aliasedURIs <;> cases h2 : cfg.referenceURIs <;> simp
  · simp only [referenceURI, List.mem_flatMap]
    refine ⟨m, hm, ?_⟩
    cases hf <;> simp

/-- Witness for `C2_amended` at `[text][ref]`: the opening-bracket Hide span
is produced while the link data stays empty. -/
theorem C2_amended_witness :
    (referenceURI docRef true).2 = [] ∧
    allLinks docRef defaultConfig =
      (if defaultConfig.aliasedURIs then (aliasedURI docRef).2 else []) ∧
    (⟨⟨0, 1⟩, ⟨0, 11⟩, .hide⟩ : Decoration) ∈ (referenceURI docRef true).1
    := by
  refine ⟨C2_amended.1 docRef true, C2_amended.2.1 docRef defaultConfig, ?_⟩
  have h := C2_amended.2.2 docRef true ⟨0, 11, ⟨4, 0, 3⟩⟩ (by decide)
  exact h

/-- C3: a non-code span is suppressed by the code-block filter exactly when
its parent is fully contained in some code range (`contains`, not
`intersects` — a partially overlapping range is not excluded), and the
inline-code/fenced-code spans themselves are filtered by selection only,
never by containment. -/
theorem C3_codeblock_exclusion :
    (∀ (r : Rng) (crs : List Rng), isInsideCodeBlock r crs = true ↔
      ∃ cr ∈ crs, cr.start ≤ r.start ∧ r.stop ≤ cr.stop) ∧
    (∀ (r cr : Rng), ¬(cr.start ≤ r.start ∧ r.stop ≤ cr.stop) →
      isInsideCodeBlock r [cr] = false) ∧
    (∀ (s : Text) (sels : List Sel) (cfg : Config) (d : Decoration),
      d ∈ survivors s sels cfg ↔
        ((d ∈ codeDecorations s cfg ∧
          isLineOfRangeSelected s sels d.parent = false) ∨
         (d ∈ allDecorations s cfg ∧
          isLineOfRangeSelected s sels d.parent = false ∧
          ¬∃ cr ∈ getCodeBlockRanges s,
            cr.start ≤ d.parent.start ∧ d.parent.stop ≤ cr.stop))) := by
  refine ⟨isInsideCodeBlock_iff, fun r cr h => ?_, fun s sels cfg d => ?_⟩
  · cases hb : isInsideCodeBlock r [cr] with
    | false => rfl
    | true =>
      obtain ⟨cr', hcr', hc⟩ := (isInsideCodeBlock_iff r [cr]).mp hb
      simp only [List.mem_singleton] at hcr'
      subst hcr'
      exact absurd hc h
  · rw [mem_survivors_iff]
    constructor
    · rintro (h | ⟨h1, h2, h3⟩)
      · exact Or.inl h
      · refine Or.inr ⟨h1, h2, ?_⟩
        intro hex
        rw [(isInsideCodeBlock_iff _ _).mpr hex] at h3
        exact Bool.noConfusion h3
    · rintro (h | ⟨h1, h2, h3⟩)
      · exact Or.inl h
      · refine Or.inr ⟨h1, h2, ?_⟩
        cases hb : isInsideCodeBlock d.parent (getCodeBlockRanges s) with
        | false => rfl
        | true => exact absurd ((isInsideCodeBlock_iff _ _).mp hb) h3

/-- Witness for `C3_codeblock_exclusion`: a range partially overlapping a code
range (overlap without containment) is not excluded. -/
theorem C3_witness : isInsideCodeBlock ⟨0, 5⟩ [⟨2, 8⟩] = false :=
  C3_codeblock_exclusion.2.1 ⟨0, 5⟩ ⟨2, 8⟩ (by decide)

/-- C6 (code bug): on the document `**a**` with a selection on line 0 every
span is suppressed, the decoration map stays empty, and `updateDecorations`
issues zero `setDecorations` calls — in particular no empty-list call for the
Hide kind, although the previous recompute (no selection) had published Hide
ranges that now need clearing.  The claim's "exactly one bulk-apply call per
kind, including kinds with zero surviving ranges" is violated. -/
theorem C6_no_call_for_empty_kind :
    updateCalls docBold [⟨0, 0⟩] defaultConfig = [] ∧
    survivingRanges docBold [] defaultConfig .hide ≠ [] ∧
    (.hide, ([] : List Rng)) ∉ updateCalls docBold [⟨0, 0⟩] defaultConfig
    := by
  decide

/-- C7, counterexample: a fenced block whose two fences are four backticks is
not matched at all (no Hide spans), and with a four-backtick opening fence and
a three-backtick closing fence the single match starts at offset 1 — inside
the opening fence run, not at its beginning.  Both contradict the claim that
three-or-more-character fences are matched as a block starting at the
beginning of the opening fence. -/
theorem C7_counterexample :
    execAll blockCodeTryAt docFence44 = [] ∧
    blockCode docFence44 = [] ∧
    (execAll blockCodeTryAt docFence43).map (fun m => m.idx) = [1] := by
  decide

/-- C7 (amended): the fenced-code-block matcher requires fences of exactly
three backticks or tildes: every match decomposes as a three-character fence,
a `\w*` language tag and a newline, lazily matched body lines, and the same
three-character fence followed by a newline; it emits one pair of Hide spans
covering the opening fence line and the closing fence line.  A fence run of
four or more characters is never matched at its first character. -/
theorem C7_amended (s : Text) (m : RMatch (Nat × Nat))
    (hm : m ∈ execAll blockCodeTryAt s) :
    ∃ w b, m.data = (4+w, 4) ∧ m.len = (4+w) + b + 4 ∧
      w = runLen isWordB s (m.idx+3) ∧
      (seg s m.idx 3 = ['`', '`', '`'] ∨ seg s m.idx 3 = ['~', '~', '~']) ∧
      charAt? s (m.idx+3+w) = some '\n' ∧
      seg s (m.idx+4+w+b) 3 = seg s m.idx 3 ∧
      charAt? s (m.idx+4+w+b+3) = some '\n' ∧
      (⟨⟨m.idx, m.idx + (4+w)⟩, ⟨m.idx, m.idx + m.len⟩, .hide⟩ : Decoration)
        ∈ blockCode s ∧
      (⟨⟨m.idx + m.len - 4, m.idx + m.len⟩, ⟨m.idx, m.idx + m.len⟩,
        .hide⟩ : Decoration) ∈ blockCode s := by
  have hspec := blockCodeTryAt_spec (mem_execAll hm)
  obtain ⟨w, b, hg, hl, hw, hf, hnl, hclose, hnl2⟩ := hspec
  have hmem := mem_getSymmetricHideRanges_of hm
  refine ⟨w, b, hg, hl, hw, hf, hnl, hclose, hnl2, ?_, ?_⟩
  · simp only [blockCode, List.mem_map]
    refine ⟨_, hmem.1, ?_⟩
    rw [hg]
  · simp only [blockCode, List.mem_map]
    refine ⟨_, hmem.2, ?_⟩
    rw [hg]

/-- Witness for `C7_amended` at the block ```` ```js\nlet\n``` ````. -/
theorem C7_amended_witness :
    (⟨0, 14, (6, 4)⟩ : RMatch (Nat × Nat)) ∈ execAll blockCodeTryAt docFenceJs
    ∧ (⟨⟨0, 6⟩, ⟨0, 14⟩, .hide⟩ : Decoration) ∈ blockCode docFenceJs := by
  refine ⟨by decide, ?_⟩
  have h := C7_amended docFenceJs ⟨0, 14, (6, 4)⟩ (by decide)
  obtain ⟨w, b, hg, hl, -, -, -, -, -, h1, -⟩ := h
  have hw : w = 2 := by
    have : (6, 4) = ((4+w : Nat), (4 : Nat)) := hg
    simp only [Prod.mk.injEq] at this
    omega
  subst hw
  exact h1

/-! ### Aliased links: the link-text range spans the same lines as the
construct -/

theorem aliased_tail_no_newline {s : Text} {i l : Nat} {d : AliasedData}
    (h : aliasedURITryAt s i = some (l, d)) :
    ∀ p, i + 1 + d.textLen ≤ p → p < i + l → charAt? s p ≠ some '\n' := by
  obtain ⟨c0, r1, r2, hl, ht, hr2, hu, hop, htl, hbr, hpar, hc0, hlet, hr1e,
    hcol, hr2e, hend⟩ := aliasedURITryAt_spec h
  intro p hp1 hp2 hcp
  subst hl
  rcases Nat.lt_or_ge p (i+2+d.textLen) with hc1 | hc1
  · have hpe : p = i+1+d.textLen := by omega
    rw [hpe, hbr] at hcp
    exact absurd (Option.some.inj hcp) (by decide)
  rcases Nat.lt_or_ge p (i+3+d.textLen) with hc2 | hc2
  · have hpe : p = i+2+d.textLen := by omega
    rw [hpe, hpar] at hcp
    exact absurd (Option.some.inj hcp) (by decide)
  rcases Nat.lt_or_ge p (i+4+d.textLen) with hc3 | hc3
  · have hpe : p = i+3+d.textLen := by omega
    rw [hpe, hc0] at hcp
    have hce := Option.some.inj hcp
    subst hce
    exact absurd hlet (by decide)
  rcases Nat.lt_or_ge p (i+4+d.textLen+r1) with hc4 | hc4
  · obtain ⟨c, hc, hpc⟩ := runLen_sat isSchemeCharB s (i+4+d.textLen)
      (p - (i+4+d.textLen)) (by omega)
    have harith : i+4+d.textLen + (p - (i+4+d.textLen)) = p := by omega
    rw [harith] at hc
    rw [hc] at hcp
    have hce := Option.some.inj hcp
    subst hce
    exact absurd hpc (by decide)
  rcases Nat.lt_or_ge p (i+5+d.textLen+r1) with hc5 | hc5
  · have hpe : p = i+4+d.textLen+r1 := by omega
    rw [hpe, hcol] at hcp
    exact absurd (Option.some.inj hcp) (by decide)
  rcases Nat.lt_or_ge p (i+5+d.textLen+r1+r2) with hc6 | hc6
  · obtain ⟨c, hc, hpc⟩ := runLen_sat isParenURICharB s (i+5+d.textLen+r1)
      (p - (i+5+d.textLen+r1)) (by omega)
    have harith : i+5+d.textLen+r1 + (p - (i+5+d.textLen+r1)) = p := by
      omega
    rw [harith] at hc
    rw [hc] at hcp
    have hce := Option.some.inj hcp
    subst hce
    exact absurd hpc (by decide)
  · have hpe : p = i+5+d.textLen+r1+r2 := by omega
    rw [hpe, hend] at hcp
    exact absurd (Option.some.inj hcp) (by decide)

theorem isLineOfRangeSelected_congr {s : Text} {sels : List Sel}
    {r1 r2 : Rng} (h1 : lineOf s r1.start = lineOf s r2.start)
    (h2 : lineOf s r1.stop = lineOf s r2.stop) :
    isLineOfRangeSelected s sels r1 = isLineOfRangeSelected s sels r2 := by
  simp [isLineOfRangeSelected, h1, h2]

/-- The link-text range of an aliased-link match spans exactly the lines of
its parent range: the leading `[` is not a newline, and the `](url)` tail
contains no newline. -/
theorem aliased_link_sel_eq {s : Text} {sels : List Sel}
    {m : RMatch AliasedData} (hm : m ∈ execAll aliasedURITryAt s) :
    isLineOfRangeSelected s sels
      ⟨m.idx + 1, m.idx + 1 + m.data.textLen⟩ =
    isLineOfRangeSelected s sels ⟨m.idx, m.idx + m.len⟩ := by
  have h := mem_execAll hm
  obtain ⟨c0, r1, r2, hl, ht, hr2, hu, hop, htl, hbr, hpar, hc0, hlet, hr1e,
    hcol, hr2e, hend⟩ := aliasedURITryAt_spec h
  apply isLineOfRangeSelected_congr
  · show lineOf s (m.idx + 1) = lineOf s m.idx
    symm
    apply lineOf_eq_of_no_newline (by omega)
    intro p hp1 hp2
    have hpe : p = m.idx := by omega
    rw [hpe, hop]
    intro hcp
    exact absurd (Option.some.inj hcp) (by decide)
  · show lineOf s (m.idx + 1 + m.data.textLen) = lineOf s (m.idx + m.len)
    apply lineOf_eq_of_no_newline
    · omega
    · exact aliased_tail_no_newline h

/-- C4: any span whose parent line range meets a selection contributes
nothing — every range of every produced decoration kind traces back to a span
whose parent is not line-selected; every published link's range is not
line-selected; and the link entry of an aliased-link construct whose parent
line range meets a selection is absent from the published link list. -/
theorem C4_selection_suppression (s : Text) (sels : List Sel) (cfg : Config) :
    (∀ k r, r ∈ survivingRanges s sels cfg k →
      ∃ d, (d ∈ codeDecorations s cfg ∨ d ∈ allDecorations s cfg) ∧
        d.type = k ∧ d.range = r ∧
        isLineOfRangeSelected s sels d.parent = false) ∧
    (∀ lk ∈ publishedLinks s sels cfg,
      isLineOfRangeSelected s sels lk.range = false) ∧
    (∀ m ∈ execAll aliasedURITryAt s,
      isLineOfRangeSelected s sels ⟨m.idx, m.idx + m.len⟩ = true →
      aliasedLinkOf s m ∉ publishedLinks s sels cfg) := by
  refine ⟨fun k r h => survivingRanges_sound h,
    fun lk h => ((mem_publishedLinks_iff s sels cfg lk).mp h).2.1,
    fun m hm hsel hmem => ?_⟩
  have hrange := ((mem_publishedLinks_iff s sels cfg _).mp hmem).2.1
  have heq := @aliased_link_sel_eq s sels m hm
  have : isLineOfRangeSelected s sels
      ⟨m.idx + 1, m.idx + 1 + m.data.textLen⟩ = false := hrange
  rw [heq, hsel] at this
  exact Bool.noConfusion this

/-- Witness for `C4_selection_suppression`: on the aliased link `[a](h:x)`
with a selection on line 0, the construct's link entry is not published. -/
theorem C4_witness :
    (⟨0, 8, ⟨1, 3⟩⟩ : RMatch AliasedData) ∈ execAll aliasedURITryAt docAliased
    ∧ aliasedLinkOf docAliased ⟨0, 8, ⟨1, 3⟩⟩ ∉
        publishedLinks docAliased [⟨0, 0⟩] aliasedConfig := by
  refine ⟨by decide, ?_⟩
  exact (C4_selection_suppression docAliased [⟨0, 0⟩] aliasedConfig).2.2
    ⟨0, 8, ⟨1, 3⟩⟩ (by decide) (by decide)

/-! ### The horizontal-line `lastIndexOf` computation -/

theorem seg_append (s : Text) (a b c : Nat) :
    seg s a b ++ seg s (a+b) c = seg s a (b+c) := by
  simp only [seg]
  rw [List.take_add]
  congr 1
  rw [List.drop_drop]

theorem seg_drop (s : Text) (i l pre : Nat) :
    (seg s i l).drop pre = seg s (i+pre) (l - pre) := by
  simp only [seg]
  rw [List.drop_take, List.drop_drop]

theorem seg_take (s : Text) (a n m : Nat) :
    (seg s a n).take m = seg s a (min m n) := by
  simp only [seg]
  rw [List.take_take]

theorem lastIndexOfAux_eq {hay pat : Text} {j0 : Nat}
    (hocc : List.isPrefixOf pat (hay.drop j0) = true)
    (hhigh : ∀ j', j0 < j' → List.isPrefixOf pat (hay.drop j') = false) :
    ∀ start, j0 ≤ start → lastIndexOfAux hay pat start = some j0 := by
  intro start
  induction start with
  | zero =>
    intro hle
    have hj0 : j0 = 0 := by omega
    subst hj0
    simp only [lastIndexOfAux]
    rw [if_pos]
    simpa using hocc
  | succ n ih =>
    intro hle
    rcases Nat.eq_or_lt_of_le hle with heq | hlt
    · subst heq
      simp only [lastIndexOfAux]
      rw [if_pos hocc]
    · have hn : j0 ≤ n := by omega
      simp only [lastIndexOfAux]
      rw [if_neg]
      · exact ih hn
      · rw [hhigh (n+1) (by omega)]
        simp

/-- `fullMatch.lastIndexOf(leadingSpace + lineChars)` finds the rule line at
its canonical offset: the pattern ends in a rule character, the part of the
match after the canonical occurrence is blank, and the rule character is not
blank, so no later occurrence exists. -/
theorem hr_lastIndexOf {s : Text} {i l : Nat} {d : HRData}
    (h : hrTryAt s i = some (l, d)) :
    lastIndexOfPos (seg s i l)
      (seg s (i + d.pre) d.lead ++ seg s (i + d.pre + d.lead) d.run) =
    some d.pre := by
  obtain ⟨hl, hpre2, hrun3, hcset, hleadE, hrunE, htrailE, hcharAt,
    e, he, -⟩ := hrTryAt_spec h
  have hbound : i + l ≤ s.length := by
    have := charAt?_lt_length he
    omega
  have hpat : seg s (i + d.pre) d.lead ++ seg s (i + d.pre + d.lead) d.run =
      seg s (i + d.pre) (d.lead + d.run) := seg_append s (i + d.pre) _ _
  rw [hpat, lastIndexOfPos]
  have hhaylen : (seg s i l).length = l := by
    rw [seg_length]
    omega
  have hpatlen : (seg s (i + d.pre) (d.lead + d.run)).length =
      d.lead + d.run := by
    rw [seg_length]
    omega
  have hocc : List.isPrefixOf (seg s (i + d.pre) (d.lead + d.run))
      ((seg s i l).drop d.pre) = true := by
    rw [List.isPrefixOf_iff_prefix, seg_drop]
    have harith : i + d.pre + d.lead = i + (d.pre + d.lead) := by omega
    have htake : seg s (i + d.pre) (d.lead + d.run) =
        (seg s (i + d.pre) (l - d.pre)).take (d.lead + d.run) := by
      rw [seg_take]
      congr 1
      omega
    rw [htake]
    exact List.take_prefix _ _
  have hhigh : ∀ j', d.pre < j' →
      List.isPrefixOf (seg s (i + d.pre) (d.lead + d.run))
        ((seg s i l).drop j') = false := by
    intro j' hj'
    cases hb : List.isPrefixOf (seg s (i + d.pre) (d.lead + d.run))
        ((seg s i l).drop j') with
    | false => rfl
    | true =>
      exfalso
      have hpref := (List.isPrefixOf_iff_prefix).mp hb
      have hlenle := List.IsPrefix.length_le hpref
      rw [hpatlen, List.length_drop, hhaylen] at hlenle
      have hjl : j' + d.lead + d.run ≤ l := by omega
      -- the last pattern character is the rule character
      obtain ⟨c', hc', hpc'⟩ := runLen_sat (fun x => x = d.runChar) s
        (i + d.pre + d.lead) (d.run - 1) (by rw [← hrunE]; omega)
      simp only [decide_eq_true_eq] at hpc'
      subst hpc'
      have hkey : (seg s (i + d.pre) (d.lead + d.run)).get?
          (d.lead + d.run - 1) = some d.runChar := by
        rw [seg_get? s (i + d.pre) (d.lead + d.run) (d.lead + d.run - 1)
          (by omega)]
        have harith : i + d.pre + (d.lead + d.run - 1) =
            i + d.pre + d.lead + (d.run - 1) := by omega
        rw [harith]
        exact hc'
      obtain ⟨rest, hrest⟩ := hpref
      have hget : ((seg s i l).drop j').get? (d.lead + d.run - 1) =
          some d.runChar := by
        rw [← hrest, List.get?_append (by rw [hpatlen]; omega)]
        exact hkey
      rw [List.get?_drop] at hget
      have hget2 : charAt? s (i + (j' + (d.lead + d.run - 1))) =
          some d.runChar := by
        rw [← seg_get? s i l _ (by omega)]
        exact hget
      -- but that position lies in the blank trailing run
      obtain ⟨c2, hc2, hws2⟩ := runLen_sat isSpaceTabB s
        (i + d.pre + d.lead + d.run)
        (i + (j' + (d.lead + d.run - 1)) - (i + d.pre + d.lead + d.run))
        (by rw [← htrailE]; omega)
      have harith : i + d.pre + d.lead + d.run +
          (i + (j' + (d.lead + d.run - 1)) -
            (i + d.pre + d.lead + d.run)) =
          i + (j' + (d.lead + d.run - 1)) := by omega
      rw [harith] at hc2
      rw [hget2] at hc2
      have hcc : d.runChar = c2 := Option.some.inj hc2
      rw [← hcc] at hws2
      rcases hcset with hcx | hcx | hcx <;> rw [hcx] at hws2 <;>
        exact absurd hws2 (by decide)
  have := lastIndexOfAux_eq hocc hhigh (seg s i l).length
    (by rw [hhaylen]; omega)
  exact this

/-- Every horizontal-line decoration is the rule-line range of a match. -/
theorem horizontalLine_mem {s : Text} {d : Decoration}
    (hd : d ∈ horizontalLine s) :
    ∃ m ∈ execAll hrTryAt s, m.idx + m.len ≤ s.length ∧
      d = ⟨⟨m.idx + m.data.pre, m.idx + m.len⟩,
           ⟨m.idx + m.data.pre, m.idx + m.len⟩, .horizontalLine⟩ := by
  simp only [horizontalLine, List.mem_map] at hd
  obtain ⟨m, hm, heq⟩ := hd
  have htry := mem_execAll hm
  obtain ⟨hl, hpre2, hrun3, -, -, -, -, -, e, he, -⟩ := hrTryAt_spec htry
  refine ⟨m, hm, by have := charAt?_lt_length he; omega, ?_⟩
  rw [← heq]
  rw [hr_lastIndexOf htry]
  have hstart : ((m.idx : Int) + (m.data.pre : Int)).toNat =
      m.idx + m.data.pre := by omega
  rw [hstart]
  have hstop : m.idx + m.data.pre + m.data.lead + m.data.run +
      m.data.trail = m.idx + m.len := by omega
  rw [hstop]

/-! ### Well-formedness of all produced decorations (C9) -/

/-- A decoration is well formed when its range lies inside its parent, both
ranges are ordered, and the parent ends inside the snapshot. -/
def DecorationWF (s : Text) (d : Decoration) : Prop :=
  d.parent.start ≤ d.range.start ∧ d.range.start ≤ d.range.stop ∧
  d.range.stop ≤ d.parent.stop ∧ d.parent.stop ≤ s.length

/-- The group lengths of a symmetric match fit in the full match. -/
def SymBounds (tryAt : Scanner (Nat × Nat)) : Prop :=
  ∀ s j l g, tryAt s j = some (l, g) → g.1 ≤ l ∧ g.2 ≤ l

theorem boldSymBounds : SymBounds boldTryAt := by
  intro s j l g h
  obtain ⟨hg, L, hl, hL, -⟩ := boldTryAt_spec h
  subst hg
  constructor <;> dsimp <;> omega

theorem italicSymBounds : SymBounds italicTryAt := by
  intro s j l g h
  obtain ⟨hg, L, dd, hl, hL, -⟩ := italicTryAt_spec h
  subst hg
  constructor <;> dsimp <;> omega

theorem strikethroughSymBounds : SymBounds strikethroughTryAt := by
  intro s j l g h
  obtain ⟨hg, L, hl, hL, -⟩ := strikethroughTryAt_spec h
  subst hg
  constructor <;> dsimp <;> omega

theorem inlineCodeSymBounds : SymBounds inlineCodeTryAt := by
  intro s j l g h
  obtain ⟨hg, L, hl, hL, -⟩ := inlineCodeTryAt_spec h
  subst hg
  constructor <;> dsimp <;> omega

theorem blockCodeSymBounds : SymBounds blockCodeTryAt := by
  intro s j l g h
  obtain ⟨w, b, hg, hl, -⟩ := blockCodeTryAt_spec h
  subst hg
  constructor <;> dsimp <;> omega

theorem simpleURISymBounds : SymBounds simpleURITryAt := by
  intro s j l g h
  obtain ⟨hg, r1, r2, c0, hl, hr2, -⟩ := simpleURITryAt_spec h
  subst hg
  constructor <;> dsimp <;> omega

theorem symHide_wf {tryAt : Scanner (Nat × Nat)} (hB : SymBounds tryAt)
    (hP : Progress tryAt) {s : Text} {rp : Rng × Rng}
    (h : rp ∈ getSymmetricHideRanges s tryAt) :
    rp.2.start ≤ rp.1.start ∧ rp.1.start ≤ rp.1.stop ∧
    rp.1.stop ≤ rp.2.stop ∧ rp.2.stop ≤ s.length := by
  obtain ⟨m, hm, hpar, hr⟩ := mem_getSymmetricHideRanges h
  have htry := mem_execAll hm
  have hb := hB s m.idx m.len m.data htry
  have hp := hP s m.idx m.len m.data htry
  rcases hr with hr | hr <;> rw [hr, hpar] <;> refine ⟨?_, ?_, ?_, ?_⟩ <;>
    dsimp <;> omega

theorem fullMatch_wf {tryAt : Scanner α} (hP : Progress tryAt) {s : Text}
    {rp : Rng × Rng} (h : rp ∈ getFullMatchRanges s tryAt) :
    rp.2.start ≤ rp.1.start ∧ rp.1.start ≤ rp.1.stop ∧
    rp.1.stop ≤ rp.2.stop ∧ rp.2.stop ≤ s.length := by
  obtain ⟨m, hm, h1, h2⟩ := mem_getFullMatchRanges h
  have hp := hP s m.idx m.len m.data (mem_execAll hm)
  rw [h1, h2]
  refine ⟨?_, ?_, ?_, ?_⟩ <;> dsimp <;> omega

theorem headingPrefixLen_le (g : Text) : headingPrefixLen g ≤ g.length := by
  simp only [headingPrefixLen]
  have h1 := countLeading_le isSpaceTabB g
  have h2 := countLeading_le isHashB (g.drop (countLeading isSpaceTabB g))
  rw [List.length_drop] at h2
  split
  · cases hc : charAt? g (countLeading isSpaceTabB g +
        countLeading isHashB (g.drop (countLeading isSpaceTabB g))) with
    | none => dsimp only; omega
    | some c =>
      have := charAt?_lt_length hc
      dsimp only
      split <;> omega
  · omega

theorem symFamily_wf {tryAt : Scanner (Nat × Nat)} (hB : SymBounds tryAt)
    (hP : Progress tryAt) {s : Text} {d : Decoration} {k1 k2 : DecorationKind}
    (h : d ∈ (getSymmetricHideRanges s tryAt).map
        (fun rp => (⟨rp.1, rp.2, k1⟩ : Decoration)) ++
      (getFullMatchRanges s tryAt).map
        (fun rp => (⟨rp.1, rp.2, k2⟩ : Decoration))) :
    DecorationWF s d := by
  rw [List.mem_append] at h
  rcases h with h | h <;> rw [List.mem_map] at h <;> obtain ⟨rp, hrp, heq⟩ := h
  · have := symHide_wf hB hP hrp
    rw [← heq]
    exact this
  · have := fullMatch_wf hP hrp
    rw [← heq]
    exact this

theorem bold_wf {s : Text} {d : Decoration} (h : d ∈ bold s) :
    DecorationWF s d :=
  symFamily_wf boldSymBounds boldProgress h

theorem italic_wf {s : Text} {d : Decoration} (h : d ∈ italic s) :
    DecorationWF s d :=
  symFamily_wf italicSymBounds italicProgress h

theorem symHideOnly_wf {tryAt : Scanner (Nat × Nat)} (hB : SymBounds tryAt)
    (hP : Progress tryAt) {s : Text} {d : Decoration} {k1 : DecorationKind}
    (h : d ∈ (getSymmetricHideRanges s tryAt).map
        (fun rp => (⟨rp.1, rp.2, k1⟩ : Decoration))) :
    DecorationWF s d := by
  rw [List.mem_map] at h
  obtain ⟨rp, hrp, heq⟩ := h
  have := symHide_wf hB hP hrp
  rw [← heq]
  exact this

theorem strikethrough_wf {s : Text} {d : Decoration}
    (h : d ∈ strikethrough s) : DecorationWF s d :=
  symHideOnly_wf strikethroughSymBounds strikethroughProgress h

theorem inlineCode_wf {s : Text} {d : Decoration} (h : d ∈ inlineCode s) :
    DecorationWF s d :=
  symHideOnly_wf inlineCodeSymBounds inlineCodeProgress h

theorem blockCode_wf {s : Text} {d : Decoration} (h : d ∈ blockCode s) :
    DecorationWF s d :=
  symHideOnly_wf blockCodeSymBounds blockCodeProgress h

theorem simpleURI_wf {s : Text} {d : Decoration} (h : d ∈ simpleURI s) :
    DecorationWF s d :=
  symHideOnly_wf simpleURISymBounds simpleURIProgress h

theorem headings_wf {s : Text} {d : Decoration} (h : d ∈ headings s) :
    DecorationWF s d := by
  simp only [headings, List.mem_append] at h
  rcases h with ((((h | h) | h) | h) | h)
  · simp only [List.mem_filterMap] at h
    obtain ⟨m, hm, heq⟩ := h
    have hp := hAllProgress s m.idx m.len m.data (mem_execAll hm)
    split at heq
    · exact absurd heq (by simp)
    · simp only [Option.some.injEq] at heq
      have hple := headingPrefixLen_le (seg s m.idx m.len)
      rw [seg_length] at hple
      rw [← heq]
      refine ⟨?_, ?_, ?_, ?_⟩ <;> dsimp <;> omega
  · rw [List.mem_map] at h
    obtain ⟨rp, hrp, heq⟩ := h
    have := fullMatch_wf hAllProgress hrp
    rw [← heq]
    exact this
  · rw [List.mem_map] at h
    obtain ⟨rp, hrp, heq⟩ := h
    have := fullMatch_wf h1Progress hrp
    rw [← heq]
    exact this
  · rw [List.mem_map] at h
    obtain ⟨rp, hrp, heq⟩ := h
    have := fullMatch_wf h2Progress hrp
    rw [← heq]
    exact this
  · rw [List.mem_map] at h
    obtain ⟨rp, hrp, heq⟩ := h
    have := fullMatch_wf h3Progress hrp
    rw [← heq]
    exact this

theorem horizontalLine_wf {s : Text} {d : Decoration}
    (h : d ∈ horizontalLine s) : DecorationWF s d := by
  obtain ⟨m, hm, hbound, heq⟩ := horizontalLine_mem h
  have hspec := hrTryAt_spec (mem_execAll hm)
  obtain ⟨hl, hpre2, -⟩ := hspec
  rw [heq]
  refine ⟨?_, ?_, ?_, ?_⟩ <;> dsimp <;> omega

theorem aliasedURI_wf {s : Text} {d : Decoration}
    (h : d ∈ (aliasedURI s).1) : DecorationWF s d := by
  simp only [aliasedURI, List.mem_flatMap] at h
  obtain ⟨m, hm, hin⟩ := h
  have htry := mem_execAll hm
  obtain ⟨c0, r1, r2, hl, ht, hr2, -⟩ := aliasedURITryAt_spec htry
  have hp := aliasedURIProgress s m.idx m.len m.data htry
  simp only [List.mem_cons, List.mem_singleton] at hin
  rcases hin with rfl | rfl | rfl | hfalse
  · refine ⟨?_, ?_, ?_, ?_⟩ <;> dsimp <;> omega
  · refine ⟨?_, ?_, ?_, ?_⟩ <;> dsimp <;> omega
  · refine ⟨?_, ?_, ?_, ?_⟩ <;> dsimp <;> omega
  · exact absurd hfalse (by simp)

theorem referenceURI_wf {s : Text} {hf : Bool} {d : Decoration}
    (h : d ∈ (referenceURI s hf).1) : DecorationWF s d := by
  simp only [referenceURI, List.mem_flatMap] at h
  obtain ⟨m, hm, hin⟩ := h
  have htry := mem_execAll hm
  obtain ⟨hl, ht, hr, hsp, -⟩ := referenceURITryAt_spec htry
  have hp := referenceURIProgress s m.idx m.len m.data htry
  cases hf with
  | true =>
    rw [if_pos rfl] at hin
    simp only [List.mem_cons, List.mem_singleton] at hin
    rcases hin with rfl | rfl | rfl | rfl | hfalse
    · refine ⟨?_, ?_, ?_, ?_⟩ <;> dsimp <;> omega
    · refine ⟨?_, ?_, ?_, ?_⟩ <;> dsimp <;> omega
    · refine ⟨?_, ?_, ?_, ?_⟩ <;> dsimp <;> omega
    · refine ⟨?_, ?_, ?_, ?_⟩ <;> dsimp <;> omega
    · exact absurd hfalse (by simp)
  | false =>
    rw [if_neg Bool.false_ne_true] at hin
    simp only [List.mem_append, List.mem_cons, List.mem_singleton] at hin
    rcases hin with (rfl | rfl | rfl | rfl | hfalse) | hin2
    · refine ⟨?_, ?_, ?_, ?_⟩ <;> dsimp <;> omega
    · refine ⟨?_, ?_, ?_, ?_⟩ <;> dsimp <;> omega
    · refine ⟨?_, ?_, ?_, ?_⟩ <;> dsimp <;> omega
    · refine ⟨?_, ?_, ?_, ?_⟩ <;> dsimp <;> omega
    · exact absurd hfalse (by simp)
    · split at hin2
      · simp only [List.mem_singleton] at hin2
        subst hin2
        refine ⟨?_, ?_, ?_, ?_⟩ <;> dsimp <;> omega
      · exact absurd hin2 (by simp)

theorem mem_ite_nil {c : Prop} [Decidable c] {l : List β} {x : β}
    (h : x ∈ if c then l else []) : x ∈ l := by
  split at h
  · exact h
  · exact absurd h (by simp)

/-- C9: every decoration span produced by any matcher under any configuration
has its range inside its parent, ordered endpoints, and endpoints that are
valid offsets of the snapshot; hence no produced range reaches outside the
matched construct's parent. -/
theorem C9_ranges_well_formed (s : Text) (cfg : Config) (d : Decoration)
    (h : d ∈ codeDecorations s cfg ++ allDecorations s cfg) :
    d.parent.start ≤ d.range.start ∧ d.range.start ≤ d.range.stop ∧
    d.range.stop ≤ d.parent.stop ∧ d.parent.stop ≤ s.length := by
  rw [List.mem_append] at h
  rcases h with h | h
  · simp only [codeDecorations, List.mem_append] at h
    rcases h with h | h
    · exact inlineCode_wf (mem_ite_nil h)
    · exact blockCode_wf (mem_ite_nil h)
  · simp only [allDecorations, List.mem_append] at h
    rcases h with ((((((h | h) | h) | h) | h) | h) | h) | h
    · exact bold_wf (mem_ite_nil h)
    · exact italic_wf (mem_ite_nil h)
    · exact strikethrough_wf (mem_ite_nil h)
    · exact simpleURI_wf (mem_ite_nil h)
    · exact headings_wf (mem_ite_nil h)
    · exact horizontalLine_wf (mem_ite_nil h)
    · exact aliasedURI_wf (mem_ite_nil h)
    · exact referenceURI_wf (mem_ite_nil h)

/-- Witness for `C9_ranges_well_formed` at the first Hide span of `**a**`. -/
theorem C9_witness :
    (⟨⟨0, 2⟩, ⟨0, 5⟩, .hide⟩ : Decoration) ∈
      codeDecorations docBold defaultConfig ++
        allDecorations docBold defaultConfig ∧
    (0 : Nat) ≤ 0 ∧ (0 : Nat) ≤ 2 ∧ (2 : Nat) ≤ 5 ∧ 5 ≤ docBold.length := by
  refine ⟨by decide, ?_⟩
  have h := C9_ranges_well_formed docBold defaultConfig
    ⟨⟨0, 2⟩, ⟨0, 5⟩, .hide⟩ (by decide)
  exact h

/-! ### Single-line matchers (C10) -/

theorem seg_char_mem {s : Text} {i n k : Nat} (hk : k < n) {c : Char}
    (hc : charAt? s (i+k) = some c) : c ∈ seg s i n := by
  have hseg := seg_get? s i n k hk
  rw [hc] at hseg
  exact List.get?_mem hseg

theorem boldTryAt_noLT {s : Text} {i l : Nat} {g : Nat × Nat}
    (h : boldTryAt s i = some (l, g)) :
    ∀ p, i ≤ p → p < i + l →
      ∃ c, charAt? s p = some c ∧ isLineTermB c = false := by
  obtain ⟨-, L, hl, hL, hct, hseg, hdelim⟩ := boldTryAt_spec h
  obtain ⟨hfirst, hlast, hdots⟩ := symContentOK_spec hct
  have hp := boldProgress s i l g h
  intro p hp1 hp2
  have hlt : p < s.length := by omega
  obtain ⟨c, hc⟩ := charAt?_isSome_of_lt hlt
  refine ⟨c, hc, ?_⟩
  subst hl
  have hstar : ∀ x : Char, x ∈ seg s i 2 → isLineTermB x = false := by
    intro x hx
    rcases hdelim with hd | hd <;> rw [hd] at hx <;>
      simp only [List.mem_cons, List.not_mem_nil, or_false] at hx <;>
      rcases hx with rfl | rfl <;> decide
  rcases Nat.lt_or_ge p (i+2) with hr | hr
  · have hc' : charAt? s (i + (p - i)) = some c := by
      have : i + (p - i) = p := by omega
      rw [this]; exact hc
    exact hstar c (seg_char_mem (by omega) hc')
  rcases Nat.lt_or_ge p (i+2+L-1) with hr2 | hr2
  · obtain ⟨c2, hc2, hdot⟩ := hdots (p - (i+2)) (by omega)
    have : i + 2 + (p - (i+2)) = p := by omega
    rw [this] at hc2
    rw [hc2] at hc
    have hcc := Option.some.inj hc
    rw [hcc] at hdot
    exact isLineTermB_eq_false_of_isDotB hdot
  rcases Nat.lt_or_ge p (i+2+L) with hr3 | hr3
  · obtain ⟨c2, hc2, hbad⟩ := hlast
    have hpe : p = i + 2 + L - 1 := by omega
    rw [hpe] at hc
    rw [hc2] at hc
    have hcc := Option.some.inj hc
    rw [hcc] at hbad
    exact isLineTermB_eq_false_of_notbad badStarB_of_ws hbad
  · have hc' : charAt? s (i + 2 + L + (p - (i+2+L))) = some c := by
      have : i + 2 + L + (p - (i+2+L)) = p := by omega
      rw [this]; exact hc
    have hmem := seg_char_mem (show p - (i+2+L) < 2 by omega) hc'
    rw [hseg] at hmem
    exact hstar c hmem

theorem italicTryAt_noLT {s : Text} {i l : Nat} {g : Nat × Nat}
    (h : italicTryAt s i = some (l, g)) :
    ∀ p, i ≤ p → p < i + l →
      ∃ c, charAt? s p = some c ∧ isLineTermB c = false := by
  obtain ⟨-, L, dc, hl, hL, hci, hd, hct, hcl⟩ := italicTryAt_spec h
  obtain ⟨hfirst, hlast, hdots⟩ := symContentOK_spec hct
  have hp := italicProgress s i l g h
  intro p hp1 hp2
  have hlt : p < s.length := by omega
  obtain ⟨c, hc⟩ := charAt?_isSome_of_lt hlt
  refine ⟨c, hc, ?_⟩
  subst hl
  have hdne : isLineTermB dc = false := by
    rcases hd with rfl | rfl <;> decide
  rcases Nat.lt_or_ge p (i+1) with hr | hr
  · have hpe : p = i := by omega
    rw [hpe, hci] at hc
    rw [Option.some.inj hc] at hdne
    exact hdne
  rcases Nat.lt_or_ge p (i+1+L-1) with hr2 | hr2
  · obtain ⟨c2, hc2, hdot⟩ := hdots (p - (i+1)) (by omega)
    have : i + 1 + (p - (i+1)) = p := by omega
    rw [this] at hc2
    rw [hc2] at hc
    rw [Option.some.inj hc] at hdot
    exact isLineTermB_eq_false_of_isDotB hdot
  rcases Nat.lt_or_ge p (i+1+L) with hr3 | hr3
  · obtain ⟨c2, hc2, hbad⟩ := hlast
    have hpe : p = i + 1 + L - 1 := by omega
    rw [hpe, hc2] at hc
    rw [Option.some.inj hc] at hbad
    exact isLineTermB_eq_false_of_notbad badStarB_of_ws hbad
  · have hpe : p = i + 1 + L := by omega
    rw [hpe, hcl] at hc
    rw [Option.some.inj hc] at hdne
    exact hdne

theorem strikethroughTryAt_noLT {s : Text} {i l : Nat} {g : Nat × Nat}
    (h : strikethroughTryAt s i = some (l, g)) :
    ∀ p, i ≤ p → p < i + l →
      ∃ c, charAt? s p = some c ∧ isLineTermB c = false := by
  obtain ⟨-, L, hl, hL, hseg1, hct, hseg2⟩ := strikethroughTryAt_spec h
  obtain ⟨hfirst, hlast, hdots⟩ := symContentOK_spec hct
  have hp := strikethroughProgress s i l g h
  intro p hp1 hp2
  have hlt : p < s.length := by omega
  obtain ⟨c, hc⟩ := charAt?_isSome_of_lt hlt
  refine ⟨c, hc, ?_⟩
  subst hl
  have htil : ∀ (x : Char) (a : Nat), seg s a 2 = ['~', '~'] →
      x ∈ seg s a 2 → isLineTermB x = false := by
    intro x a hsg hx
    rw [hsg] at hx
    simp only [List.mem_cons, List.not_mem_nil, or_false] at hx
    rcases hx with rfl | rfl <;> decide
  rcases Nat.lt_or_ge p (i+2) with hr | hr
  · have hc' : charAt? s (i + (p - i)) = some c := by
      have : i + (p - i) = p := by omega
      rw [this]; exact hc
    exact htil c i hseg1 (seg_char_mem (by omega) hc')
  rcases Nat.lt_or_ge p (i+2+L-1) with hr2 | hr2
  · obtain ⟨c2, hc2, hdot⟩ := hdots (p - (i+2)) (by omega)
    have : i + 2 + (p - (i+2)) = p := by omega
    rw [this] at hc2
    rw [hc2] at hc
    rw [Option.some.inj hc] at hdot
    exact isLineTermB_eq_false_of_isDotB hdot
  rcases Nat.lt_or_ge p (i+2+L) with hr3 | hr3
  · obtain ⟨c2, hc2, hbad⟩ := hlast
    have hpe : p = i + 2 + L - 1 := by omega
    rw [hpe, hc2] at hc
    rw [Option.some.inj hc] at hbad
    exact isLineTermB_eq_false_of_notbad badTildeB_of_ws hbad
  · have hc' : charAt? s (i + 2 + L + (p - (i+2+L))) = some c := by
      have : i + 2 + L + (p - (i+2+L)) = p := by omega
      rw [this]; exact hc
    exact htil c (i+2+L) hseg2 (seg_char_mem (by omega) hc')

theorem inlineCodeTryAt_noLT {s : Text} {i l : Nat} {g : Nat × Nat}
    (h : inlineCodeTryAt s i = some (l, g)) :
    ∀ p, i ≤ p → p < i + l →
      ∃ c, charAt? s p = some c ∧ isLineTermB c = false := by
  obtain ⟨-, L, hl, hL, hci, hct, hcl⟩ := inlineCodeTryAt_spec h
  obtain ⟨hfirst, hlast, hdots⟩ := symContentOK_spec hct
  have hp := inlineCodeProgress s i l g h
  intro p hp1 hp2
  have hlt : p < s.length := by omega
  obtain ⟨c, hc⟩ := charAt?_isSome_of_lt hlt
  refine ⟨c, hc, ?_⟩
  subst hl
  rcases Nat.lt_or_ge p (i+1) with hr | hr
  · have hpe : p = i := by omega
    rw [hpe, hci] at hc
    rw [← Option.some.inj hc]
    decide
  rcases Nat.lt_or_ge p (i+1+L-1) with hr2 | hr2
  · obtain ⟨c2, hc2, hdot⟩ := hdots (p - (i+1)) (by omega)
    have : i + 1 + (p - (i+1)) = p := by omega
    rw [this] at hc2
    rw [hc2] at hc
    rw [Option.some.inj hc] at hdot
    exact isLineTermB_eq_false_of_isDotB hdot
  rcases Nat.lt_or_ge p (i+1+L) with hr3 | hr3
  · obtain ⟨c2, hc2, hbad⟩ := hlast
    have hpe : p = i + 1 + L - 1 := by omega
    rw [hpe, hc2] at hc
    rw [Option.some.inj hc] at hbad
    exact isLineTermB_eq_false_of_notbad badTickB_of_ws hbad
  · have hpe : p = i + 1 + L := by omega
    rw [hpe, hcl] at hc
    rw [← Option.some.inj hc]
    decide

theorem simpleURITryAt_noLT {s : Text} {i l : Nat} {g : Nat × Nat}
    (h : simpleURITryAt s i = some (l, g)) :
    ∀ p, i ≤ p → p < i + l →
      ∃ c, charAt? s p = some c ∧ isLineTermB c = false := by
  obtain ⟨-, r1, r2, c0, hl, hr2, hop, hc0, hlet, hr1e, hcol, hr2e, hend⟩ :=
    simpleURITryAt_spec h
  have hp := simpleURIProgress s i l g h
  intro p hp1 hp2
  have hlt : p < s.length := by omega
  obtain ⟨c, hc⟩ := charAt?_isSome_of_lt hlt
  refine ⟨c, hc, ?_⟩
  subst hl
  rcases Nat.lt_or_ge p (i+1) with hr | hr
  · have hpe : p = i := by omega
    rw [hpe, hop] at hc
    rw [← Option.some.inj hc]
    decide
  rcases Nat.lt_or_ge p (i+2) with hrb | hrb
  · have hpe : p = i + 1 := by omega
    rw [hpe, hc0] at hc
    rw [Option.some.inj hc] at hlet
    exact isLineTermB_eq_false_of_isAsciiLetterB hlet
  rcases Nat.lt_or_ge p (i+2+r1) with hrc | hrc
  · obtain ⟨c2, hc2, hsch⟩ := runLen_sat isSchemeCharB s (i+2)
      (p - (i+2)) (by omega)
    have : i + 2 + (p - (i+2)) = p := by omega
    rw [this] at hc2
    rw [hc2] at hc
    rw [Option.some.inj hc] at hsch
    exact isLineTermB_eq_false_of_isSchemeCharB hsch
  rcases Nat.lt_or_ge p (i+3+r1) with hrd | hrd
  · have hpe : p = i + 2 + r1 := by omega
    rw [hpe, hcol] at hc
    rw [← Option.some.inj hc]
    decide
  rcases Nat.lt_or_ge p (i+3+r1+r2) with hre | hre
  · obtain ⟨c2, hc2, huri⟩ := runLen_sat isAngleURICharB s (i+3+r1)
      (p - (i+3+r1)) (by omega)
    have : i + 3 + r1 + (p - (i+3+r1)) = p := by omega
    rw [this] at hc2
    rw [hc2] at hc
    rw [Option.some.inj hc] at huri
    exact isLineTermB_eq_false_of_isAngleURICharB huri
  · have hpe : p = i + 3 + r1 + r2 := by omega
    rw [hpe, hend] at hc
    rw [← Option.some.inj hc]
    decide

theorem symFamily_parent {tryAt : Scanner (Nat × Nat)} {s : Text}
    {d : Decoration} {k1 k2 : DecorationKind}
    (h : d ∈ (getSymmetricHideRanges s tryAt).map
        (fun rp => (⟨rp.1, rp.2, k1⟩ : Decoration)) ++
      (getFullMatchRanges s tryAt).map
        (fun rp => (⟨rp.1, rp.2, k2⟩ : Decoration))) :
    ∃ m ∈ execAll tryAt s, d.parent = ⟨m.idx, m.idx + m.len⟩ := by
  rw [List.mem_append] at h
  rcases h with h | h <;> rw [List.mem_map] at h <;> obtain ⟨rp, hrp, heq⟩ := h
  · obtain ⟨m, hm, hpar, -⟩ := mem_getSymmetricHideRanges hrp
    exact ⟨m, hm, by rw [← heq]; exact hpar⟩
  · obtain ⟨m, hm, -, hpar⟩ := mem_getFullMatchRanges hrp
    exact ⟨m, hm, by rw [← heq]; exact hpar⟩

theorem symHideOnly_parent {tryAt : Scanner (Nat × Nat)} {s : Text}
    {d : Decoration} {k1 : DecorationKind}
    (h : d ∈ (getSymmetricHideRanges s tryAt).map
        (fun rp => (⟨rp.1, rp.2, k1⟩ : Decoration))) :
    ∃ m ∈ execAll tryAt s, d.parent = ⟨m.idx, m.idx + m.len⟩ := by
  rw [List.mem_map] at h
  obtain ⟨rp, hrp, heq⟩ := h
  obtain ⟨m, hm, hpar, -⟩ := mem_getSymmetricHideRanges hrp
  exact ⟨m, hm, by rw [← heq]; exact hpar⟩

/-- C10: every span produced by the bold, italic, strikethrough, inline-code
and simple-URI matchers lies within a single line — its parent range contains
no line terminator, so the parent's start and end are on the same line. -/
theorem C10_single_line (s : Text) (d : Decoration)
    (h : d ∈ bold s ++ italic s ++ strikethrough s ++ inlineCode s ++
      simpleURI s) :
    (∀ p, d.parent.start ≤ p → p < d.parent.stop →
      ∃ c, charAt? s p = some c ∧ isLineTermB c = false) ∧
    lineOf s d.parent.start = lineOf s d.parent.stop := by
  have key : ∃ (i l : Nat), d.parent = ⟨i, i + l⟩ ∧
      ∀ p, i ≤ p → p < i + l →
        ∃ c, charAt? s p = some c ∧ isLineTermB c = false := by
    simp only [List.mem_append] at h
    rcases h with (((h | h) | h) | h) | h
    · simp only [bold] at h
      obtain ⟨m, hm, hpar⟩ := symFamily_parent h
      exact ⟨m.idx, m.len, hpar, boldTryAt_noLT (mem_execAll hm)⟩
    · simp only [italic] at h
      obtain ⟨m, hm, hpar⟩ := symFamily_parent h
      exact ⟨m.idx, m.len, hpar, italicTryAt_noLT (mem_execAll hm)⟩
    · simp only [strikethrough] at h
      obtain ⟨m, hm, hpar⟩ := symHideOnly_parent h
      exact ⟨m.idx, m.len, hpar, strikethroughTryAt_noLT (mem_execAll hm)⟩
    · simp only [inlineCode] at h
      obtain ⟨m, hm, hpar⟩ := symHideOnly_parent h
      exact ⟨m.idx, m.len, hpar, inlineCodeTryAt_noLT (mem_execAll hm)⟩
    · simp only [simpleURI] at h
      obtain ⟨m, hm, hpar⟩ := symHideOnly_parent h
      exact ⟨m.idx, m.len, hpar, simpleURITryAt_noLT (mem_execAll hm)⟩
  obtain ⟨i, l, hpar, hNL⟩ := key
  rw [hpar]
  constructor
  · intro p h1 h2
    exact hNL p h1 h2
  · show lineOf s i = lineOf s (i + l)
    apply lineOf_eq_of_no_newline (by omega)
    intro p h1 h2 hcon
    obtain ⟨c, hcc, hltf⟩ := hNL p h1 h2
    rw [hcon] at hcc
    rw [← Option.some.inj hcc] at hltf
    exact absurd hltf (by decide)

/-- Witness for `C10_single_line` at the Hide span of `**a**`. -/
theorem C10_witness :
    (⟨⟨0, 2⟩, ⟨0, 5⟩, .hide⟩ : Decoration) ∈
      bold docBold ++ italic docBold ++ strikethrough docBold ++
        inlineCode docBold ++ simpleURI docBold ∧
    lineOf docBold 0 = lineOf docBold 5 := by
  refine ⟨by decide, ?_⟩
  have h := (C10_single_line docBold ⟨⟨0, 2⟩, ⟨0, 5⟩, .hide⟩ (by decide)).2
  exact h

/-! ### C8 — the recompute is a pure function of document, selections and
configuration: every regex `lastIndex` is back at `0` when the pass ends. -/

theorem getSymmetricHideRangesS_zero {tryAt : Scanner (Nat × Nat)}
    (hP : Progress tryAt) (s : Text) :
    getSymmetricHideRangesS s tryAt 0 =
      (getSymmetricHideRanges s tryAt, 0) := by
  unfold getSymmetricHideRangesS
  rw [execAllFrom_zero hP]
  rfl

theorem getFullMatchRangesS_zero {tryAt : Scanner α}
    (hP : Progress tryAt) (s : Text) :
    getFullMatchRangesS s tryAt 0 = (getFullMatchRanges s tryAt, 0) := by
  unfold getFullMatchRangesS
  rw [execAllFrom_zero hP]
  rfl

theorem boldS_zero (s : Text) : boldS s 0 = (bold s, 0) := by
  unfold boldS
  rw [getSymmetricHideRangesS_zero boldProgress]
  dsimp only
  rw [getFullMatchRangesS_zero boldProgress]
  rfl

theorem italicS_zero (s : Text) : italicS s 0 = (italic s, 0) := by
  unfold italicS
  rw [getSymmetricHideRangesS_zero italicProgress]
  dsimp only
  rw [getFullMatchRangesS_zero italicProgress]
  rfl

theorem strikethroughS_zero (s : Text) :
    strikethroughS s 0 = (strikethrough s, 0) := by
  unfold strikethroughS
  rw [getSymmetricHideRangesS_zero strikethroughProgress]
  rfl

theorem inlineCodeS_zero (s : Text) : inlineCodeS s 0 = (inlineCode s, 0) := by
  unfold inlineCodeS
  rw [getSymmetricHideRangesS_zero inlineCodeProgress]
  rfl

theorem blockCodeS_zero (s : Text) : blockCodeS s 0 = (blockCode s, 0) := by
  unfold blockCodeS
  rw [getSymmetricHideRangesS_zero blockCodeProgress]
  rfl

theorem simpleURIS_zero (s : Text) : simpleURIS s 0 = (simpleURI s, 0) := by
  unfold simpleURIS
  rw [getSymmetricHideRangesS_zero simpleURIProgress]
  rfl

theorem aliasedURIS_zero (s : Text) :
    aliasedURIS s 0 = (aliasedURI s, 0) := by
  unfold aliasedURIS
  rw [execAllFrom_zero aliasedURIProgress]
  rfl

theorem referenceURIS_zero (s : Text) (hideFully : Bool) :
    referenceURIS s hideFully 0 = (referenceURI s hideFully, 0) := by
  unfold referenceURIS
  rw [execAllFrom_zero referenceURIProgress]
  rfl

theorem headingsS_zero (s : Text) :
    headingsS s 0 0 0 0 = (headings s, (0, 0, 0, 0)) := by
  unfold headingsS
  rw [execAllFrom_zero hAllProgress]
  dsimp only
  rw [getFullMatchRangesS_zero hAllProgress,
    getFullMatchRangesS_zero h1Progress, getFullMatchRangesS_zero h2Progress,
    getFullMatchRangesS_zero h3Progress]
  rfl

theorem horizontalLineS_zero (s : Text) :
    horizontalLineS s 0 = (horizontalLine s, 0) := by
  unfold horizontalLineS
  rw [execAllFrom_zero hrProgress]
  rfl

theorem updateDecorationsS_initial (s : Text) (sels : List Sel)
    (cfg : Config) :
    updateDecorationsS s sels cfg initialRegexState =
      ((updateCalls s sels cfg, publishedLinks s sels cfg),
        initialRegexState) := by
  unfold updateDecorationsS
  have hbold : (if cfg.bold then boldS s initialRegexState.boldLI
      else ([], initialRegexState.boldLI)) =
      ((if cfg.bold then bold s else []), 0) := by
    cases cfg.bold <;> simp [boldS_zero, initialRegexState]
  have hitalic : (if cfg.italic then italicS s initialRegexState.italicLI
      else ([], initialRegexState.italicLI)) =
      ((if cfg.italic then italic s else []), 0) := by
    cases cfg.italic <;> simp [italicS_zero, initialRegexState]
  have hstrike : (if cfg.strikethrough then
      strikethroughS s initialRegexState.strikethroughLI
      else ([], initialRegexState.strikethroughLI)) =
      ((if cfg.strikethrough then strikethrough s else []), 0) := by
    cases cfg.strikethrough <;> simp [strikethroughS_zero, initialRegexState]
  have hinline : (if cfg.inlineCode then
      inlineCodeS s initialRegexState.inlineCodeLI
      else ([], initialRegexState.inlineCodeLI)) =
      ((if cfg.inlineCode then inlineCode s else []), 0) := by
    cases cfg.inlineCode <;> simp [inlineCodeS_zero, initialRegexState]
  have hblock : (if cfg.blockCode then
      blockCodeS s initialRegexState.blockCodeLI
      else ([], initialRegexState.blockCodeLI)) =
      ((if cfg.blockCode then blockCode s else []), 0) := by
    cases cfg.blockCode <;> simp [blockCodeS_zero, initialRegexState]
  have hsimple : (if cfg.simpleURI then
      simpleURIS s initialRegexState.simpleURILI
      else ([], initialRegexState.simpleURILI)) =
      ((if cfg.simpleURI then simpleURI s else []), 0) := by
    cases cfg.simpleURI <;> simp [simpleURIS_zero, initialRegexState]
  have hhead : (if cfg.headings then
      headingsS s initialRegexState.hAllLI initialRegexState.h1LI
        initialRegexState.h2LI initialRegexState.h3LI
      else ([], (initialRegexState.hAllLI, initialRegexState.h1LI,
        initialRegexState.h2LI, initialRegexState.h3LI))) =
      ((if cfg.headings then headings s else []), (0, 0, 0, 0)) := by
    cases cfg.headings <;> simp [headingsS_zero, initialRegexState]
  have hhr : (if cfg.horizontalLine then
      horizontalLineS s initialRegexState.hrLI
      else ([], initialRegexState.hrLI)) =
      ((if cfg.horizontalLine then horizontalLine s else []), 0) := by
    cases cfg.horizontalLine <;> simp [horizontalLineS_zero, initialRegexState]
  have haliased : (if cfg.aliasedURIs then
      aliasedURIS s initialRegexState.aliasedURILI
      else (([], []), initialRegexState.aliasedURILI)) =
      (((if cfg.aliasedURIs then (aliasedURI s).1 else []),
        (if cfg.aliasedURIs then (aliasedURI s).2 else [])), 0) := by
    cases cfg.aliasedURIs <;> simp [aliasedURIS_zero, initialRegexState]
  have href : (if cfg.referenceURIs then
      referenceURIS s cfg.referenceURIsFully initialRegexState.referenceURILI
      else (([], []), initialRegexState.referenceURILI)) =
      (((if cfg.referenceURIs then
          (referenceURI s cfg.referenceURIsFully).1 else []),
        (if cfg.referenceURIs then
          (referenceURI s cfg.referenceURIsFully).2 else [])), 0) := by
    cases cfg.referenceURIs <;> simp [referenceURIS_zero, initialRegexState]
  rw [hbold, hitalic, hstrike, hinline, hblock, hsimple, hhead, hhr,
    haliased, href]
  rfl

/-- C8: the decoration recompute is deterministic and leaves no state
behind.  Starting from fresh regexes (`initialRegexState`, every global
regex's `lastIndex` equal to `0`), one pass over document `s` with
selections `sels` under configuration `cfg` produces exactly the pure
per-kind range lists `updateCalls` and link list `publishedLinks`, and
returns every regex's `lastIndex` to `0` — a failing final `exec` resets
`lastIndex` — so an immediately repeated recompute on the same inputs
produces the identical result: the pass is idempotent and depends only on
the document text, the selections and the configuration. -/
theorem C8_idempotent (s : Text) (sels : List Sel) (cfg : Config) :
    updateDecorationsS s sels cfg initialRegexState =
      ((updateCalls s sels cfg, publishedLinks s sels cfg),
        initialRegexState) ∧
    updateDecorationsS s sels cfg
        (updateDecorationsS s sels cfg initialRegexState).2 =
      updateDecorationsS s sels cfg initialRegexState := by
  refine ⟨updateDecorationsS_initial s sels cfg, ?_⟩
  rw [updateDecorationsS_initial s sels cfg]
  exact updateDecorationsS_initial s sels cfg

/-! ### C5 — heading level mapping -/

theorem headingTryAt_noLT {hOK : Nat → Bool} {s : Text} {j l : Nat}
    (h : headingTryAt hOK s j = some (l, ())) :
    ∀ p, j ≤ p → p < j + l →
      ∃ c, charAt? s p = some c ∧ isLineTermB c = false := by
  obtain ⟨-, -, hcase⟩ := headingTryAt_spec h
  intro p hjp hpl
  rcases hcase with ⟨hl, -⟩ | ⟨c, hcs, hcw, hl⟩
  · by_cases hp1 : p < j + runLen isSpaceTabB s j
    · obtain ⟨c, hc, hpc⟩ := runLen_sat isSpaceTabB s j (p - j) (by omega)
      have he : j + (p - j) = p := by omega
      rw [he] at hc
      exact ⟨c, hc, isLineTermB_eq_false_of_isSpaceTabB hpc⟩
    · obtain ⟨c, hc, hpc⟩ := runLen_sat isHashB s
        (j + runLen isSpaceTabB s j) (p - (j + runLen isSpaceTabB s j))
        (by omega)
      have he : j + runLen isSpaceTabB s j +
          (p - (j + runLen isSpaceTabB s j)) = p := by omega
      rw [he] at hc
      exact ⟨c, hc, isLineTermB_eq_false_of_isHashB hpc⟩
  · by_cases hp1 : p < j + runLen isSpaceTabB s j
    · obtain ⟨c, hc, hpc⟩ := runLen_sat isSpaceTabB s j (p - j) (by omega)
      have he : j + (p - j) = p := by omega
      rw [he] at hc
      exact ⟨c, hc, isLineTermB_eq_false_of_isSpaceTabB hpc⟩
    by_cases hp2 : p < j + runLen isSpaceTabB s j +
        runLen isHashB s (j + runLen isSpaceTabB s j)
    · obtain ⟨c, hc, hpc⟩ := runLen_sat isHashB s
        (j + runLen isSpaceTabB s j) (p - (j + runLen isSpaceTabB s j))
        (by omega)
      have he : j + runLen isSpaceTabB s j +
          (p - (j + runLen isSpaceTabB s j)) = p := by omega
      rw [he] at hc
      exact ⟨c, hc, isLineTermB_eq_false_of_isHashB hpc⟩
    by_cases hp3 : p = j + runLen isSpaceTabB s j +
        runLen isHashB s (j + runLen isSpaceTabB s j)
    · rw [hp3]
      exact ⟨c, hcs, isLineTermB_eq_false_of_isSpaceTabB hcw⟩
    · obtain ⟨c, hc, hpc⟩ := runLen_sat isDotB s
        (j + runLen isSpaceTabB s j +
          runLen isHashB s (j + runLen isSpaceTabB s j) + 1)
        (p - (j + runLen isSpaceTabB s j +
          runLen isHashB s (j + runLen isSpaceTabB s j) + 1)) (by omega)
      have he : j + runLen isSpaceTabB s j +
          runLen isHashB s (j + runLen isSpaceTabB s j) + 1 +
          (p - (j + runLen isSpaceTabB s j +
            runLen isHashB s (j + runLen isSpaceTabB s j) + 1)) = p := by
        omega
      rw [he] at hc
      exact ⟨c, hc, isLineTermB_eq_false_of_isDotB hpc⟩

theorem headingStartSep (hOK : Nat → Bool) (s : Text) :
    StartSeparated (headingTryAt hOK) s := by
  intro j j2 l a l2 a2 h h2 hlt
  cases a
  cases a2
  by_contra hcon
  push_neg at hcon
  have hml2 := (headingTryAt_spec h2).1
  unfold isMLineStart at hml2
  have hne : (j2 == 0) = false := by
    simp only [beq_eq_false_iff_ne, ne_eq]
    omega
  rw [hne, Bool.false_or] at hml2
  obtain ⟨c2, hc2, hterm⟩ := headingTryAt_noLT h (j2 - 1) (by omega)
    (by omega)
  rw [hc2] at hml2
  dsimp only at hml2
  rw [hterm] at hml2
  exact Bool.noConfusion hml2

theorem headingTryAt_congr {hOK hOK2 : Nat → Bool} {s : Text} {j l : Nat}
    (h : headingTryAt hOK s j = some (l, ()))
    (h2 : hOK2 (runLen isHashB s (j + runLen isSpaceTabB s j)) = true) :
    headingTryAt hOK2 s j = some (l, ()) := by
  have hml := (headingTryAt_spec h).1
  have hok := (headingTryAt_spec h).2.1
  simp only [headingTryAt] at h ⊢
  rw [if_pos hml] at h ⊢
  rw [if_pos hok] at h
  rw [if_pos h2]
  exact h

theorem mem_headings_cases {s : Text} {d : Decoration}
    (hm : d ∈ headings s) :
    (∃ m ∈ execAll (headingTryAt hAllOK) s,
      d.parent = ⟨m.idx, m.idx + m.len⟩ ∧
      (d.type = .hide ∨ d.type = .defaultColor)) ∨
    (∃ m ∈ execAll (headingTryAt h1OK) s,
      d.parent = ⟨m.idx, m.idx + m.len⟩ ∧ d.type = .xxl) ∨
    (∃ m ∈ execAll (headingTryAt h2OK) s,
      d.parent = ⟨m.idx, m.idx + m.len⟩ ∧ d.type = .xl) ∨
    (∃ m ∈ execAll (headingTryAt h3OK) s,
      d.parent = ⟨m.idx, m.idx + m.len⟩ ∧ d.type = .l) := by
  simp only [headings, getFullMatchRanges, List.mem_append,
    List.mem_filterMap, List.mem_map] at hm
  rcases hm with ((((⟨m, hmem, hsome⟩ | ⟨rp, ⟨m, hmem, hrp⟩, hd⟩) |
      ⟨rp, ⟨m, hmem, hrp⟩, hd⟩) | ⟨rp, ⟨m, hmem, hrp⟩, hd⟩) |
      ⟨rp, ⟨m, hmem, hrp⟩, hd⟩)
  · left
    refine ⟨m, hmem, ?_⟩
    by_cases hpl : (headingPrefixLen (seg s m.idx m.len) == 0) = true
    · rw [if_pos hpl] at hsome
      exact Option.noConfusion hsome
    · rw [if_neg hpl] at hsome
      rw [← Option.some.inj hsome]
      exact ⟨rfl, Or.inl rfl⟩
  · left
    refine ⟨m, hmem, ?_⟩
    rw [← hd, ← hrp]
    exact ⟨rfl, Or.inr rfl⟩
  · right; left
    refine ⟨m, hmem, ?_⟩
    rw [← hd, ← hrp]
    exact ⟨rfl, rfl⟩
  · right; right; left
    refine ⟨m, hmem, ?_⟩
    rw [← hd, ← hrp]
    exact ⟨rfl, rfl⟩
  · right; right; right
    refine ⟨m, hmem, ?_⟩
    rw [← hd, ← hrp]
    exact ⟨rfl, rfl⟩


/-- C5: for every document position `j` that starts a line, the heading
decorations at that line are a pure function of the leading `#`-run length
`h` (after optional leading indentation): when the all-headings pattern
matches with length `L` the run satisfies `1 ≤ h ≤ 6` and a DefaultColor
span covers the whole match; an XXL size span is added exactly when
`h = 1`, XL when `h = 2`, L when `h = 3`; when `4 ≤ h` no size decoration
whose parent starts at `j` exists; and when the pattern does not match at
`j` (for example a `#`-run followed by a non-whitespace character such as
`#5`) no heading decoration whose parent starts at `j` exists at all. -/
theorem C5_heading_level_mapping (s : Text) (j : Nat) :
    (∀ L, headingTryAt hAllOK s j = some (L, ()) →
      (1 ≤ runLen isHashB s (j + runLen isSpaceTabB s j) ∧
        runLen isHashB s (j + runLen isSpaceTabB s j) ≤ 6) ∧
      (⟨⟨j, j + L⟩, ⟨j, j + L⟩, .defaultColor⟩ : Decoration) ∈ headings s ∧
      (runLen isHashB s (j + runLen isSpaceTabB s j) = 1 →
        (⟨⟨j, j + L⟩, ⟨j, j + L⟩, .xxl⟩ : Decoration) ∈ headings s) ∧
      (runLen isHashB s (j + runLen isSpaceTabB s j) = 2 →
        (⟨⟨j, j + L⟩, ⟨j, j + L⟩, .xl⟩ : Decoration) ∈ headings s) ∧
      (runLen isHashB s (j + runLen isSpaceTabB s j) = 3 →
        (⟨⟨j, j + L⟩, ⟨j, j + L⟩, .l⟩ : Decoration) ∈ headings s) ∧
      (4 ≤ runLen isHashB s (j + runLen isSpaceTabB s j) →
        ∀ d ∈ headings s, d.parent.start = j →
          d.type ≠ .xxl ∧ d.type ≠ .xl ∧ d.type ≠ .l)) ∧
    (headingTryAt hAllOK s j = none →
      ∀ d ∈ headings s, d.parent.start ≠ j) := by
  constructor
  · intro L hsome
    have hok := (headingTryAt_spec hsome).2.1
    have hrange : 1 ≤ runLen isHashB s (j + runLen isSpaceTabB s j) ∧
        runLen isHashB s (j + runLen isSpaceTabB s j) ≤ 6 := by
      simp only [hAllOK, Bool.and_eq_true, decide_eq_true_eq] at hok
      exact hok
    refine ⟨hrange, ?_, ?_, ?_, ?_, ?_⟩
    · have hex : (⟨j, L, ()⟩ : RMatch Unit) ∈
          execAll (headingTryAt hAllOK) s :=
        tryAt_mem_execAll hAllProgress (headingStartSep hAllOK s) hsome
      have hB : (⟨⟨j, j + L⟩, ⟨j, j + L⟩, .defaultColor⟩ : Decoration) ∈
          (getFullMatchRanges s (headingTryAt hAllOK)).map
            (fun rp => ⟨rp.1, rp.2, .defaultColor⟩) := by
        refine List.mem_map.mpr
          ⟨((⟨j, j + L⟩ : Rng), (⟨j, j + L⟩ : Rng)), ?_, rfl⟩
        unfold getFullMatchRanges
        exact List.mem_map.mpr ⟨⟨j, L, ()⟩, hex, rfl⟩
      simp only [headings, List.mem_append]
      exact Or.inl (Or.inl (Or.inl (Or.inr hB)))
    · intro h1
      have hsome1 : headingTryAt h1OK s j = some (L, ()) := by
        refine headingTryAt_congr hsome ?_
        rw [h1]
        decide
      have hex : (⟨j, L, ()⟩ : RMatch Unit) ∈
          execAll (headingTryAt h1OK) s :=
        tryAt_mem_execAll h1Progress (headingStartSep h1OK s) hsome1
      have hB : (⟨⟨j, j + L⟩, ⟨j, j + L⟩, .xxl⟩ : Decoration) ∈
          (getFullMatchRanges s (headingTryAt h1OK)).map
            (fun rp => ⟨rp.1, rp.2, .xxl⟩) := by
        refine List.mem_map.mpr
          ⟨((⟨j, j + L⟩ : Rng), (⟨j, j + L⟩ : Rng)), ?_, rfl⟩
        unfold getFullMatchRanges
        exact List.mem_map.mpr ⟨⟨j, L, ()⟩, hex, rfl⟩
      simp only [headings, List.mem_append]
      exact Or.inl (Or.inl (Or.inr hB))
    · intro h2
      have hsome2 : headingTryAt h2OK s j = some (L, ()) := by
        refine headingTryAt_congr hsome ?_
        rw [h2]
        decide
      have hex : (⟨j, L, ()⟩ : RMatch Unit) ∈
          execAll (headingTryAt h2OK) s :=
        tryAt_mem_execAll h2Progress (headingStartSep h2OK s) hsome2
      have hB : (⟨⟨j, j + L⟩, ⟨j, j + L⟩, .xl⟩ : Decoration) ∈
          (getFullMatchRanges s (headingTryAt h2OK)).map
            (fun rp => ⟨rp.1, rp.2, .xl⟩) := by
        refine List.mem_map.mpr
          ⟨((⟨j, j + L⟩ : Rng), (⟨j, j + L⟩ : Rng)), ?_, rfl⟩
        unfold getFullMatchRanges
        exact List.mem_map.mpr ⟨⟨j, L, ()⟩, hex, rfl⟩
      simp only [headings, List.mem_append]
      exact Or.inl (Or.inr hB)
    · intro h3
      have hsome3 : headingTryAt h3OK s j = some (L, ()) := by
        refine headingTryAt_congr hsome ?_
        rw [h3]
        decide
      have hex : (⟨j, L, ()⟩ : RMatch Unit) ∈
          execAll (headingTryAt h3OK) s :=
        tryAt_mem_execAll h3Progress (headingStartSep h3OK s) hsome3
      have hB : (⟨⟨j, j + L⟩, ⟨j, j + L⟩, .l⟩ : Decoration) ∈
          (getFullMatchRanges s (headingTryAt h3OK)).map
            (fun rp => ⟨rp.1, rp.2, .l⟩) := by
        refine List.mem_map.mpr
          ⟨((⟨j, j + L⟩ : Rng), (⟨j, j + L⟩ : Rng)), ?_, rfl⟩
        unfold getFullMatchRanges
        exact List.mem_map.mpr ⟨⟨j, L, ()⟩, hex, rfl⟩
      simp only [headings, List.mem_append]
      exact Or.inr hB
    · intro h4 d hd hds
      rcases mem_headings_cases hd with
        ⟨m, hmem, hpar, htype⟩ | ⟨m, hmem, hpar, htype⟩ |
        ⟨m, hmem, hpar, htype⟩ | ⟨m, hmem, hpar, htype⟩
      · rcases htype with ht | ht <;> rw [ht] <;>
          exact ⟨by simp, by simp, by simp⟩
      · exfalso
        obtain ⟨mi, ml, md⟩ := m
        cases md
        rw [hpar] at hds
        dsimp only at hds
        rw [hds] at hmem
        have hsp := mem_execAll hmem
        have h1 := (headingTryAt_spec hsp).2.1
        simp only [h1OK, beq_iff_eq] at h1
        omega
      · exfalso
        obtain ⟨mi, ml, md⟩ := m
        cases md
        rw [hpar] at hds
        dsimp only at hds
        rw [hds] at hmem
        have hsp := mem_execAll hmem
        have h2 := (headingTryAt_spec hsp).2.1
        simp only [h2OK, beq_iff_eq] at h2
        omega
      · exfalso
        obtain ⟨mi, ml, md⟩ := m
        cases md
        rw [hpar] at hds
        dsimp only at hds
        rw [hds] at hmem
        have hsp := mem_execAll hmem
        have h3 := (headingTryAt_spec hsp).2.1
        simp only [h3OK, beq_iff_eq] at h3
        omega
  · intro hnone d hd hds
    rcases mem_headings_cases hd with
      ⟨m, hmem, hpar, -⟩ | ⟨m, hmem, hpar, -⟩ |
      ⟨m, hmem, hpar, -⟩ | ⟨m, hmem, hpar, -⟩
    · obtain ⟨mi, ml, md⟩ := m
      cases md
      rw [hpar] at hds
      dsimp only at hds
      rw [hds] at hmem
      have hsp := mem_execAll hmem
      rw [hnone] at hsp
      exact Option.noConfusion hsp
    · obtain ⟨mi, ml, md⟩ := m
      cases md
      rw [hpar] at hds
      dsimp only at hds
      rw [hds] at hmem
      have hsp := mem_execAll hmem
      have h1 := (headingTryAt_spec hsp).2.1
      simp only [h1OK, beq_iff_eq] at h1
      have hall : headingTryAt hAllOK s j = some (ml, ()) := by
        refine headingTryAt_congr hsp ?_
        rw [h1]
        decide
      rw [hnone] at hall
      exact Option.noConfusion hall
    · obtain ⟨mi, ml, md⟩ := m
      cases md
      rw [hpar] at hds
      dsimp only at hds
      rw [hds] at hmem
      have hsp := mem_execAll hmem
      have h2 := (headingTryAt_spec hsp).2.1
      simp only [h2OK, beq_iff_eq] at h2
      have hall : headingTryAt hAllOK s j = some (ml, ()) := by
        refine headingTryAt_congr hsp ?_
        rw [h2]
        decide
      rw [hnone] at hall
      exact Option.noConfusion hall
    · obtain ⟨mi, ml, md⟩ := m
      cases md
      rw [hpar] at hds
      dsimp only at hds
      rw [hds] at hmem
      have hsp := mem_execAll hmem
      have h3 := (headingTryAt_spec hsp).2.1
      simp only [h3OK, beq_iff_eq] at h3
      have hall : headingTryAt hAllOK s j = some (ml, ()) := by
        refine headingTryAt_congr hsp ?_
        rw [h3]
        decide
      rw [hnone] at hall
      exact Option.noConfusion hall

/-- Witness for C5 at the concrete document `docHeadings`: line 0 is the
level-1 heading match of length 3, so it carries a DefaultColor span and an
XXL size span over the full match. -/
theorem C5_witness :
    (⟨⟨0, 3⟩, ⟨0, 3⟩, .defaultColor⟩ : Decoration) ∈ headings docHeadings ∧
    (⟨⟨0, 3⟩, ⟨0, 3⟩, .xxl⟩ : Decoration) ∈ headings docHeadings := by
  have h := (C5_heading_level_mapping docHeadings 0).1 3 (by decide)
  exact ⟨h.2.1, h.2.2.1 (by decide)⟩

end MD
